import Mathlib

/-!
Verification of the case-rate analysis engine.

This file embeds the numerical core of the repository
(`src/case_rate/analysis/least_squares.py`, `timeseries.py`,
`operations.py`, `predict.py` and the record handling in
`timeseries.py`/`filters.py`) as Lean definitions and settles the frozen
claims about it.  Machine floats are modelled by real numbers; the
float sentinel NaN is modelled by `Option ℝ` (`none` = NaN); Python
exceptions are modelled by `Except AnalysisError`.
-/

namespace CaseRate

open scoped Classical

/-- Errors raised by the analysis core.  `sizeMismatch`, `tooFewSamples`
come from `LeastSquares.__init__`'s explicit checks; `singular` models
the `numpy.linalg.LinAlgError` raised by `np.linalg.inv` on a singular
normal matrix; `invalidWindow` models the window-size `ValueError`s;
`notTrained` models the untrained-predictor `ValueError`. -/
inductive AnalysisError where
  | sizeMismatch
  | tooFewSamples
  | singular
  | invalidWindow
  | notTrained
deriving DecidableEq

/-- Embedding of `evalpoly` (least_squares.py, lines 60-86):
x(t) = sum over i of b_i * t^i, for a single time value. -/
noncomputable def evalpoly (b : List ℝ) (t : ℝ) : ℝ :=
  ∑ i ∈ Finset.range b.length, b.getD i 0 * t ^ i

/-- Embedding of `derivative` (least_squares.py, lines 23-57):
given weights b_0..b_k, the weights of the derivative polynomial are
`b[1:] * arange(1, k+1)`, i.e. entry i is `b_(i+1) * (i+1)`. -/
noncomputable def derivative (b : List ℝ) : List ℝ :=
  (List.range (b.length - 1)).map (fun i => b.getD (i + 1) 0 * ((i + 1 : ℕ) : ℝ))

/-- Embedding of the design (Vandermonde) matrix `X` built in
`LeastSquares.__init__` (lines 148-151): `X[i, j] = times[i] ** j`
with `K = order + 1` columns. -/
noncomputable def designMatrix (times : List ℝ) (K : ℕ) :
    Matrix (Fin times.length) (Fin K) ℝ :=
  Matrix.of fun i j => times.get i ^ (j : ℕ)

/-- The normal matrix `X^T @ X` inverted in `LeastSquares.__init__`
(line 159). -/
noncomputable def normalMatrix (times : List ℝ) (K : ℕ) :
    Matrix (Fin K) (Fin K) ℝ :=
  Matrix.transpose (designMatrix times K) * designMatrix times K

/-- The fitted weights.  The source computes `np.linalg.pinv(X) @ y`
(line 154); for a design matrix whose normal matrix is invertible
(which the constructor enforces, since `np.linalg.inv(X.T @ X)` on
line 159 raises otherwise) the Moore-Penrose pseudo-inverse equals
`(X^T X)^-1 X^T`, which is what we write here. -/
noncomputable def olsWeights (times values : List ℝ) (order : ℕ) :
    Fin (order + 1) → ℝ :=
  ((normalMatrix times (order + 1))⁻¹ *
      Matrix.transpose (designMatrix times (order + 1))).mulVec
    (fun i => values.getD i 0)

/-- The residual sum of squares `((y - X @ w) ** 2).sum()` (lines 157-158). -/
noncomputable def olsSSR (times values : List ℝ) (order : ℕ) : ℝ :=
  ∑ i : Fin times.length,
    (values.getD i 0 -
      (designMatrix times (order + 1)).mulVec (olsWeights times values order) i) ^ 2

/-- State of a fitted `LeastSquares` regressor (least_squares.py,
lines 120-165).  `covar` is the `K x K` matrix `inv(X^T X) * noise`
stored as a total function (entries outside `K x K` are junk zeros). -/
structure OLSFit where
  times : List ℝ
  values : List ℝ
  order : ℕ
  weights : List ℝ
  rmse : ℝ
  noise : ℝ
  dof : ℕ
  covar : ℕ → ℕ → ℝ
  variances : List ℝ

/-- Embedding of `LeastSquares.__init__` (least_squares.py, lines
120-165).  The checks appear in source order: the shape check
(line 135), the sample-count check (line 138), and then the
singularity failure of `np.linalg.inv(X.T @ X)` (line 159).  On
success all derived statistics of the fit are recorded. -/
noncomputable def leastSquares (times values : List ℝ) (order : ℕ) :
    Except AnalysisError OLSFit :=
  if times.length ≠ values.length then .error .sizeMismatch
  else if values.length ≤ order + 1 then .error .tooFewSamples
  else if (normalMatrix times (order + 1)).det = 0 then .error .singular
  else
    let n := times.length
    let K := order + 1
    let w := olsWeights times values order
    let ssr := olsSSR times values order
    let noise := ssr / ((n - K : ℕ) : ℝ)
    .ok
      { times := times
        values := values
        order := order
        weights := List.ofFn w
        rmse := Real.sqrt (ssr / n)
        noise := noise
        dof := n - K
        covar := fun j k =>
          if hj : j < K then
            if hk : k < K then (normalMatrix times K)⁻¹ ⟨j, hj⟩ ⟨k, hk⟩ * noise
            else 0
          else 0
        variances := List.ofFn fun j : Fin K => (normalMatrix times K)⁻¹ j j * noise }

/-- Embedding of `LeastSquares.value` (lines 284-299) at a single time. -/
noncomputable def OLSFit.value (f : OLSFit) (t : ℝ) : ℝ :=
  evalpoly f.weights t

/-- Embedding of `LeastSquares.slope` (lines 301-329) at a single time. -/
noncomputable def OLSFit.slope (f : OLSFit) (t : ℝ) : ℝ :=
  evalpoly (derivative f.weights) t

/-- Embedding of the `standard_error` property (lines 175-177). -/
noncomputable def OLSFit.standardError (f : OLSFit) : ℝ :=
  Real.sqrt f.noise

/-- Embedding of `LeastSquares.confidence` (lines 183-202).  The
Student-t quantile `scipy.stats.t.ppf` is an external library function
and is passed in abstractly as `tppf` (first argument `(1+alpha)/2`,
second the degrees of freedom). -/
noncomputable def OLSFit.confidence (f : OLSFit) (tppf : ℝ → ℕ → ℝ) (alpha : ℝ) :
    List ℝ :=
  f.variances.map (fun v => tppf ((1 + alpha) / 2) f.dof * Real.sqrt v)

/-- Embedding of `LeastSquares.prediction_fit` (lines 240-282) at a
single time: `sqrt(noise + t_n @ covar @ t_n^T) * tppf((1+alpha)/2, dof)`
where `t_n = [1, t, t^2, ...]`. -/
noncomputable def OLSFit.predictionFit (f : OLSFit) (tppf : ℝ → ℕ → ℝ)
    (t : ℝ) (alpha : ℝ) : ℝ :=
  Real.sqrt (f.noise +
      ∑ j ∈ Finset.range (f.order + 1), ∑ k ∈ Finset.range (f.order + 1),
        t ^ j * f.covar j k * t ^ k) *
    tppf ((1 + alpha) / 2) f.dof

/-- Lower bound of the clipped window around index `i`:
`max(0, i - window // 2)` (operations.py line 154, timeseries.py
line 124).  Natural-number truncated subtraction is exactly
`max(0, i - window // 2)`. -/
def winLo (window i : ℕ) : ℕ := i - window / 2

/-- Exclusive upper bound of the clipped window around index `i`:
`min(N - 1, i + window // 2) + 1` (operations.py line 155,
timeseries.py line 125). -/
def winHi (N window i : ℕ) : ℕ := min (N - 1) (i + window / 2) + 1

/-- The slice `seq[i_min:i_max]` feeding index `i`. -/
def windowSlice (seq : List ℝ) (window i : ℕ) : List ℝ :=
  (seq.drop (winLo window i)).take (winHi seq.length window i - winLo window i)

/-- The time axis `np.arange(i_min, i_max)` of the window at `i`. -/
def windowTimes (N window i : ℕ) : List ℝ :=
  (List.range (winHi N window i - winLo window i)).map
    (fun k => ((winLo window i + k : ℕ) : ℝ))

/-- Embedding of `_sequence_growth_factor` (operations.py, lines
133-197).  `none` models the NaN sentinel the output array is
initialised with.  Per index: the all-below-0.5 branch (line 164),
the all-negative branch (line 173), the minimum-valid-count branch
(line 180), then the order-1 fit of `log(x + 1e-10)` against the
surviving times and `exp(weights[1])` (lines 185-195).  The inner
`LeastSquares` call cannot fail there (at least three distinct
integer times survive); the `.error` fallback is dead code mapped
to `none`. -/
noncomputable def sequenceGrowthFactor (seq : List ℝ) (window : ℕ) :
    List (Option ℝ) :=
  (List.range seq.length).map fun i =>
    let x := windowSlice seq window i
    let t := windowTimes seq.length window i
    if ∀ v ∈ x, v < 0.5 then some 0
    else if ∀ v ∈ x, v < 0 then none
    else
      let xt := (x.zip t).filter fun p => decide (¬ p.1 < 0)
      if xt.length < 3 then none
      else
        match leastSquares (xt.map fun p => p.2)
            (xt.map fun p => Real.log (p.1 + 1e-10)) 1 with
        | .ok f => some (Real.exp (f.weights.getD 1 0))
        | .error _ => none

/-- Embedding of `TimeSeries._local_regression` (timeseries.py, lines
87-130): optional elementwise log transform, the window-size check,
then one `LeastSquares` fit per index over the clipped window.  A
`LeastSquares` exception aborts the whole call, which `mapM` models.
(`Real.log` agrees with `np.log` only on positive samples; the claims
below use the linear domain or positive data.) -/
noncomputable def localRegression (samples : List ℝ) (window : ℕ)
    (logDomain : Bool) (order : ℕ) : Except AnalysisError (List OLSFit) :=
  let x := if logDomain then samples.map Real.log else samples
  if window < 3 then .error .invalidWindow
  else
    (List.range samples.length).mapM fun i =>
      leastSquares (windowTimes samples.length window i) (windowSlice x window i)
        order

/-- Embedding of `estimate_slope` (operations.py, lines 50-87): for
each index `i`, evaluate the derivative of `weights`, `weights + cv`
and `weights - cv` at `t = i`, where `cv = confidence(alpha)`. -/
noncomputable def estimateSlope (tppf : ℝ → ℕ → ℝ) (samples : List ℝ)
    (window order : ℕ) (alpha : ℝ) :
    Except AnalysisError (List (ℝ × ℝ × ℝ)) := do
  let regs ← localRegression samples window false order
  return regs.enum.map fun p =>
    let w := p.2.weights
    let cv := p.2.confidence tppf alpha
    (evalpoly (derivative w) p.1,
     evalpoly (derivative (List.zipWith (· + ·) w cv)) p.1,
     evalpoly (derivative (List.zipWith (· - ·) w cv)) p.1)

/-- Semantics of `np.argmin` on the two-element row
`[upper, lower]` (operations.py line 245): the index of the first
NaN if any, otherwise the index of the first minimum. -/
noncomputable def argminIdx : Option ℝ → Option ℝ → ℕ
  | none, _ => 0
  | some _, none => 1
  | some a, some b => if b < a then 1 else 0

/-- Embedding of the body of `growth_factor` after the
`estimate_slope` call (operations.py, lines 231-257):
`_sequence_growth_factor` applied to each of the three slope columns,
the upper/lower columns forced to zero wherever the best-fit column
is exactly zero (lines 239-241), then the row-wise re-sort driven by
`np.argmin(confidence_intervals, 1) != 0` (lines 245-256). -/
noncomputable def growthFactorFromSlopes (slopes : List (ℝ × ℝ × ℝ))
    (window : ℕ) : List (Option ℝ × Option ℝ × Option ℝ) :=
  let col0 := sequenceGrowthFactor (slopes.map fun r => r.1) window
  let col1 := sequenceGrowthFactor (slopes.map fun r => r.2.1) window
  let col2 := sequenceGrowthFactor (slopes.map fun r => r.2.2) window
  (List.range slopes.length).map fun i =>
    let b := col0.getD i none
    let u := if b = some 0 then some 0 else col1.getD i none
    let l := if b = some 0 then some 0 else col2.getD i none
    if argminIdx u l ≠ 0 then (b, l, u) else (b, u, l)

/-- Embedding of `growth_factor` (operations.py, lines 200-257): the
window check, the `estimate_slope` call, then the column-wise growth
computation and post-processing. -/
noncomputable def growthFactor (tppf : ℝ → ℕ → ℝ) (samples : List ℝ)
    (window order : ℕ) (alpha : ℝ) :
    Except AnalysisError (List (Option ℝ × Option ℝ × Option ℝ)) :=
  if window < 3 then .error .invalidWindow
  else do
    let slopes ← estimateSlope tppf samples window order alpha
    return growthFactorFromSlopes slopes window

/-- Embedding of the `daily_change` property (timeseries.py, lines
83-85): the first finite difference of the samples, left-padded with
a single zero. -/
noncomputable def dailyChange (samples : List ℝ) : List ℝ :=
  0 :: (List.range (samples.length - 1)).map
    (fun i => samples.getD (i + 1) 0 - samples.getD i 0)

/-- The forward-multiplication loop of `DailyCasesPredictor.predict`
(predict.py, lines 255-260): `out[0] = c` and
`out[n+1] = g[n] * out[n]`, as primitive recursion. -/
def recMul (c : ℝ) (g : ℕ → ℝ) : ℕ → ℝ :=
  fun n => Nat.rec c (fun m acc => g m * acc) n

/-- A dated record as consumed by `TimeSeries.__init__` after the
field selector has been applied: `day` is the date as a day number
(the source works with `datetime.date`; only differences of dates
matter) and `value` the selected numeric field. -/
structure Record where
  day : ℕ
  value : ℚ
deriving DecidableEq

/-- The back-fill loop body `for j in range(last_index, index):
samples[j] = samples[last_index]` (timeseries.py, lines 61-62).
`samples[last_index]` is re-read from the current array on every
iteration, exactly as in the source (the first iteration rewrites it
to itself). -/
def fillGap (samples : List ℚ) (lastIndex index : ℕ) : List ℚ :=
  (List.range (index - lastIndex)).foldl
    (fun s k => s.set (lastIndex + k) (s.getD lastIndex 0)) samples

/-- One iteration of the record loop in `TimeSeries.__init__`
(timeseries.py, lines 50-64): skip values below the threshold,
back-fill when the computed day index runs ahead of the enumeration
index, then store the record's value at its own index. -/
def buildStep (data : List Record) (start : ℕ) (minValue : ℚ)
    (samples : List ℚ) (p : ℕ × Record) : List ℚ :=
  if p.2.value < minValue then samples
  else
    let index := p.2.day - start
    let samples1 :=
      if p.1 < index then
        fillGap samples ((data.getD (p.1 - 1) ⟨0, 0⟩).day - start) index
      else samples
    samples1.set index p.2.value

/-- Embedding of the sample-array construction in
`TimeSeries.__init__` (timeseries.py, lines 41-64), starting from the
already filtered and date-summed record list (which `filters.select`
returns sorted by date and `filters.sum_by_date` keeps sorted with
distinct dates): a zero array spanning the full date range, then the
record loop with gap back-fill. -/
def buildSamples (data : List Record) (minValue : ℚ) : List ℚ :=
  match data with
  | [] => []
  | d0 :: _ =>
    let start := d0.day
    let duration := (data.getLastD d0).day - start + 1
    data.enum.foldl (buildStep data start minValue) (List.replicate duration 0)

/-- State of a `DailyCasesPredictor` (predict.py, lines 19-47).
`model = none` is the untrained state (`self._model = None`). -/
structure Predictor where
  analysisWindow : ℕ
  reportingLag : ℕ
  modelOrder : ℕ
  filterWindow : ℕ
  model : Option OLSFit
  trainingIndices : List ℕ
  validationIndices : List ℕ
  trainingSamples : Option (List ℝ)
  validationSamples : Option (List ℝ)

/-- Embedding of `DailyCasesPredictor.__init__` (predict.py, lines
19-47): the filter window falls back to the analysis window unless a
positive value is given, and the model starts untrained. -/
def mkPredictor (analysisWindow reportingLag modelOrder : ℕ)
    (filterWindow : ℤ) : Predictor :=
  { analysisWindow := analysisWindow
    reportingLag := reportingLag
    modelOrder := modelOrder
    filterWindow := if 0 < filterWindow then filterWindow.toNat else analysisWindow
    model := none
    trainingIndices := []
    validationIndices := []
    trainingSamples := none
    validationSamples := none }

/-- Embedding of `DailyCasesPredictor.predict` (predict.py, lines
212-263).  An untrained model raises (`.error .notTrained`); otherwise
the growth model and its prediction interval are evaluated at the
offsets `n + analysis_window - 1` for `n < num_days`, and the loop
`predicted_cases[n+1] = growth[n] * predicted_cases[n]` (and the same
recursion with the upper/lower bound curves) is rendered as primitive
recursion; the returned lists materialise the filled arrays. -/
noncomputable def predict (tppf : ℝ → ℕ → ℝ) (p : Predictor)
    (currentCount : ℝ) (numDays : ℕ) (alpha : ℝ) :
    Except AnalysisError (List ℝ × List (ℝ × ℝ) × List ℕ) :=
  match p.model with
  | none => .error .notTrained
  | some f =>
    let growth : ℕ → ℝ := fun n => f.value ((n : ℝ) + (p.analysisWindow : ℝ) - 1)
    let conf : ℕ → ℝ := fun n =>
      f.predictionFit tppf ((n : ℝ) + (p.analysisWindow : ℝ) - 1) alpha
    .ok (List.ofFn (fun j : Fin (numDays + 1) => recMul currentCount growth j),
         List.ofFn (fun j : Fin (numDays + 1) =>
           (recMul currentCount (fun n => growth n + conf n) j,
            recMul currentCount (fun n => growth n - conf n) j)),
         (List.range (numDays + 1)).map
           (fun n => n + p.trainingIndices.getD (p.trainingIndices.length - 1) 0))

/-- Embedding of `DailyCasesPredictor.train` (predict.py, lines
170-210).  The smoothed growth series `estimate_growth(ts,
filter_window)` is imported by predict.py from operations.py but no
such function exists anywhere in the repository, so its result is
taken as the explicit argument `dailyGrowth`; the time series enters
as its dense sample list `ts`.  Training fits the growth model on the
trailing analysis window (offset by the reporting lag), stores it,
and validates by predicting the lag window from its first daily-case
count.  The index windows assume `len(ts) >= analysis_window +
reporting_lag` (with a shorter series numpy's negative fancy indices
would wrap around). -/
noncomputable def train (tppf : ℝ → ℕ → ℝ) (p : Predictor)
    (ts : List ℝ) (dailyGrowth : List ℝ) :
    Except AnalysisError (Predictor × ℝ × ℝ) := do
  let N := ts.length
  let trainingIndices := List.range' (N - p.analysisWindow - p.reportingLag)
    p.analysisWindow
  let validationIndices := List.range' (N - p.reportingLag) p.reportingLag
  let trainingSamples := trainingIndices.map (fun i => dailyGrowth.getD i 0)
  let model ← leastSquares ((List.range p.analysisWindow).map (Nat.cast : ℕ → ℝ))
    trainingSamples p.modelOrder
  let p' : Predictor :=
    { p with
      model := some model
      trainingIndices := trainingIndices
      validationIndices := validationIndices
      trainingSamples := some trainingSamples
      validationSamples := some (validationIndices.map
        (fun i => dailyGrowth.getD i 0)) }
  let dailyCases := (dailyChange ts).drop
    ((dailyChange ts).length - (p.reportingLag + 1))
  let pr ← predict tppf p' (dailyCases.getD 0 0) p.reportingLag 0.95
  let residuals := List.zipWith (· - ·) pr.1 dailyCases
  let ve := Real.sqrt ((residuals.map (fun r => r ^ 2)).sum / residuals.length)
  return (p', model.standardError, ve)

/-- Sum of the `m`-th powers of the sample times, `sum(t_i ** m)`. -/
noncomputable def powSum (times : List ℝ) (m : ℕ) : ℝ :=
  ∑ i : Fin times.length, times.get i ^ m

/-- Mixed moment `sum(t_i ** m * y_i)` of times against values. -/
noncomputable def mixSum (times values : List ℝ) (m : ℕ) : ℝ :=
  ∑ i : Fin times.length, times.get i ^ m * values.getD i 0

/-- The shorthand for the determinant of the order-1 normal matrix. -/
noncomputable def linDet (times : List ℝ) : ℝ :=
  powSum times 0 * powSum times 2 - powSum times 1 * powSum times 1

lemma normalMatrix_apply (times : List ℝ) (K : ℕ) (j k : Fin K) :
    normalMatrix times K j k =
      ∑ i : Fin times.length, times.get i ^ ((j : ℕ) + (k : ℕ)) := by
  simp [normalMatrix, designMatrix, Matrix.mul_apply, pow_add]

lemma normalMatrix_two (times : List ℝ) :
    normalMatrix times 2 =
      !![powSum times 0, powSum times 1; powSum times 1, powSum times 2] := by
  ext j k
  fin_cases j <;> fin_cases k <;>
    simp [normalMatrix_apply, powSum]

lemma det_normalMatrix_two (times : List ℝ) :
    (normalMatrix times 2).det = linDet times := by
  rw [normalMatrix_two, Matrix.det_fin_two_of, linDet]

lemma derivative_pair (a b : ℝ) : derivative [a, b] = [b] := by
  simp [derivative, List.range_succ]

lemma evalpoly_single (c t : ℝ) : evalpoly [c] t = c := by
  simp [evalpoly]

lemma evalpoly_pair (a b t : ℝ) : evalpoly [a, b] t = a + b * t := by
  simp [evalpoly, Finset.sum_range_succ]

lemma transpose_design_mulVec (times values : List ℝ) (K : ℕ) (j : Fin K) :
    (Matrix.transpose (designMatrix times K)).mulVec
      (fun i => values.getD i 0) j = mixSum times values j := by
  simp [Matrix.mulVec, Matrix.dotProduct, designMatrix, mixSum]

lemma normalMatrix_two_inv (times : List ℝ) :
    (normalMatrix times 2)⁻¹ =
      (linDet times)⁻¹ •
        !![powSum times 2, -powSum times 1; -powSum times 1, powSum times 0] := by
  rw [Matrix.inv_def, Ring.inverse_eq_inv, det_normalMatrix_two, normalMatrix_two,
    Matrix.adjugate_fin_two_of]

lemma olsWeights_linear_zero (times values : List ℝ) :
    olsWeights times values 1 0 =
      (linDet times)⁻¹ *
        (powSum times 2 * mixSum times values 0 -
          powSum times 1 * mixSum times values 1) := by
  have hz : (Matrix.transpose (designMatrix times 2)).mulVec
      (fun i => values.getD i 0) = fun j : Fin 2 => mixSum times values j :=
    funext (transpose_design_mulVec times values 2)
  show ((normalMatrix times 2)⁻¹ *
      Matrix.transpose (designMatrix times 2)).mulVec (fun i => values.getD i 0) 0 =
    _
  rw [← Matrix.mulVec_mulVec, hz, normalMatrix_two_inv]
  simp [Matrix.smul_mulVec_assoc, Matrix.mulVec, Matrix.dotProduct,
    Fin.sum_univ_two]
  ring

lemma olsWeights_linear_one (times values : List ℝ) :
    olsWeights times values 1 1 =
      (linDet times)⁻¹ *
        (powSum times 0 * mixSum times values 1 -
          powSum times 1 * mixSum times values 0) := by
  have hz : (Matrix.transpose (designMatrix times 2)).mulVec
      (fun i => values.getD i 0) = fun j : Fin 2 => mixSum times values j :=
    funext (transpose_design_mulVec times values 2)
  show ((normalMatrix times 2)⁻¹ *
      Matrix.transpose (designMatrix times 2)).mulVec (fun i => values.getD i 0) 1 =
    _
  rw [← Matrix.mulVec_mulVec, hz, normalMatrix_two_inv]
  simp [Matrix.smul_mulVec_assoc, Matrix.mulVec, Matrix.dotProduct,
    Fin.sum_univ_two]
  ring

lemma olsWeights_linear_list (times values : List ℝ) :
    List.ofFn (olsWeights times values 1) =
      [olsWeights times values 1 0, olsWeights times values 1 1] := by
  simp [List.ofFn_succ]

/-- The normal matrix is nonsingular whenever the design matrix has at
least as many rows as columns and the sample times are pairwise
distinct: a kernel vector of the normal matrix is a kernel vector of
the design matrix, hence the coefficient vector of a polynomial of
degree below `K` vanishing at `K` distinct nodes. -/
lemma normalMatrix_det_ne_zero (times : List ℝ) (K : ℕ)
    (hK : K ≤ times.length)
    (hinj : ∀ i j : Fin times.length, times.get i = times.get j → i = j) :
    (normalMatrix times K).det ≠ 0 := by
  intro h0
  obtain ⟨v, hv0, hv⟩ := Matrix.exists_mulVec_eq_zero_iff.mpr h0
  have hXv : (designMatrix times K).mulVec v = 0 := by
    have hconj : normalMatrix times K =
        Matrix.conjTranspose (designMatrix times K) * designMatrix times K := by
      rw [normalMatrix, Matrix.conjTranspose_eq_transpose_of_trivial]
    rw [hconj] at hv
    exact (Matrix.conjTranspose_mul_self_mulVec_eq_zero _ _).mp hv
  have hV : (Matrix.vandermonde
      (fun j : Fin K => times.get (Fin.castLE hK j))).mulVec v = 0 := by
    funext j
    have hrow := congrFun hXv (Fin.castLE hK j)
    simpa [Matrix.mulVec, Matrix.dotProduct, Matrix.vandermonde, designMatrix]
      using hrow
  have hdetV : (Matrix.vandermonde
      (fun j : Fin K => times.get (Fin.castLE hK j))).det ≠ 0 := by
    rw [Matrix.det_vandermonde_ne_zero_iff]
    intro a b hab
    exact Fin.castLE_injective hK (hinj _ _ hab)
  have hv' : v = 0 := by
    have hunit : IsUnit ((Matrix.vandermonde
        (fun j : Fin K => times.get (Fin.castLE hK j))).det) :=
      isUnit_iff_ne_zero.mpr hdetV
    have h1 := congrArg
      (fun z => (Matrix.vandermonde
        (fun j : Fin K => times.get (Fin.castLE hK j)))⁻¹.mulVec z) hV
    simp only [Matrix.mulVec_mulVec, Matrix.mulVec_zero] at h1
    rw [Matrix.nonsing_inv_mul _ hunit, Matrix.one_mulVec] at h1
    exact h1
  exact hv0 hv'

/-- The fit record produced by a successful `LeastSquares`
construction (the `.ok` payload of `leastSquares`, written out). -/
noncomputable def olsFitOf (times values : List ℝ) (order : ℕ) : OLSFit :=
  { times := times
    values := values
    order := order
    weights := List.ofFn (olsWeights times values order)
    rmse := Real.sqrt (olsSSR times values order / times.length)
    noise := olsSSR times values order /
      ((times.length - (order + 1) : ℕ) : ℝ)
    dof := times.length - (order + 1)
    covar := fun j k =>
      if hj : j < order + 1 then
        if hk : k < order + 1 then
          (normalMatrix times (order + 1))⁻¹ ⟨j, hj⟩ ⟨k, hk⟩ *
            (olsSSR times values order /
              ((times.length - (order + 1) : ℕ) : ℝ))
        else 0
      else 0
    variances := List.ofFn fun j : Fin (order + 1) =>
      (normalMatrix times (order + 1))⁻¹ j j *
        (olsSSR times values order /
          ((times.length - (order + 1) : ℕ) : ℝ)) }

/-- Unfolding of a successful `LeastSquares` construction: when the
shapes agree, there are strictly more samples than weights and the
normal matrix is nonsingular, the constructor returns the fully
populated fit. -/
lemma leastSquares_ok (times values : List ℝ) (order : ℕ)
    (h1 : times.length = values.length) (h2 : order + 1 < values.length)
    (hdet : (normalMatrix times (order + 1)).det ≠ 0) :
    leastSquares times values order = .ok (olsFitOf times values order) := by
  rw [leastSquares, if_neg (by omega), if_neg (by omega), if_neg hdet]
  rfl

/-- Old elaborated form kept for rewriting convenience. -/
lemma olsFitOf_def (times values : List ℝ) (order : ℕ) :
    olsFitOf times values order =
      { times := times
        values := values
        order := order
        weights := List.ofFn (olsWeights times values order)
        rmse := Real.sqrt (olsSSR times values order / times.length)
        noise := olsSSR times values order /
          ((times.length - (order + 1) : ℕ) : ℝ)
        dof := times.length - (order + 1)
        covar := fun j k =>
          if hj : j < order + 1 then
            if hk : k < order + 1 then
              (normalMatrix times (order + 1))⁻¹ ⟨j, hj⟩ ⟨k, hk⟩ *
                (olsSSR times values order /
                  ((times.length - (order + 1) : ℕ) : ℝ))
            else 0
          else 0
        variances := List.ofFn fun j : Fin (order + 1) =>
          (normalMatrix times (order + 1))⁻¹ j j *
            (olsSSR times values order /
              ((times.length - (order + 1) : ℕ) : ℝ)) } := rfl

lemma winHi_le (N window i : ℕ) (hi : i < N) : winHi N window i ≤ N := by
  unfold winHi; omega

lemma winLo_lt_winHi (window i N : ℕ) (hi : i < N) :
    winLo window i < winHi N window i := by
  unfold winLo winHi; omega

lemma window_count_lower (N window i : ℕ) (hi : i < N) :
    min N (window / 2 + 1) ≤ winHi N window i - winLo window i := by
  unfold winLo winHi; omega

lemma windowTimes_length (N window i : ℕ) :
    (windowTimes N window i).length = winHi N window i - winLo window i := by
  simp [windowTimes]

lemma windowSlice_length (seq : List ℝ) (window i : ℕ) (hi : i < seq.length) :
    (windowSlice seq window i).length =
      winHi seq.length window i - winLo window i := by
  have h := winHi_le seq.length window i hi
  simp only [windowSlice, List.length_take, List.length_drop]
  omega

lemma windowTimes_get (N window i : ℕ) (k : Fin (windowTimes N window i).length) :
    (windowTimes N window i).get k = ((winLo window i + (k : ℕ) : ℕ) : ℝ) := by
  simp [windowTimes]

lemma windowTimes_inj (N window i : ℕ) :
    ∀ a b : Fin (windowTimes N window i).length,
      (windowTimes N window i).get a = (windowTimes N window i).get b → a = b := by
  intro a b h
  rw [windowTimes_get, windowTimes_get] at h
  have h2 : winLo window i + (a : ℕ) = winLo window i + (b : ℕ) :=
    Nat.cast_injective h
  exact Fin.ext (by omega)

/-- A `mapM` in the `Except` monad whose steps all succeed returns the
pointwise results. -/
lemma mapM_ok {α β : Type} (l : List α) (g : α → Except AnalysisError β)
    (h : α → β) (H : ∀ a ∈ l, g a = .ok (h a)) :
    l.mapM g = .ok (l.map h) := by
  induction l with
  | nil => rfl
  | cons a l ih =>
    have ha : g a = .ok (h a) := H a (by simp)
    have hl : l.mapM g = .ok (l.map h) := ih fun x hx => H x (by simp [hx])
    rw [List.mapM_cons, ha, hl]
    rfl

/-- The workhorse success lemma: with matching lengths, strictly more
samples than weights and pairwise-distinct times, `LeastSquares`
construction succeeds. -/
lemma leastSquares_ok_of_inj (times values : List ℝ) (order : ℕ)
    (h1 : times.length = values.length) (h2 : order + 1 < values.length)
    (hinj : ∀ i j : Fin times.length, times.get i = times.get j → i = j) :
    leastSquares times values order = .ok (olsFitOf times values order) :=
  leastSquares_ok times values order h1 h2
    (normalMatrix_det_ne_zero times (order + 1) (by omega) hinj)

lemma evalpoly_derivative_eq_sum (b : List ℝ) (t : ℝ) :
    evalpoly (derivative b) t =
      ∑ i ∈ Finset.range b.length, b.getD i 0 * ((i : ℝ) * t ^ (i - 1)) := by
  cases b with
  | nil => simp [evalpoly, derivative]
  | cons a bs =>
    have hlen : (derivative (a :: bs)).length = bs.length := by
      simp [derivative]
    rw [evalpoly, hlen]
    have hterm : ∀ j ∈ Finset.range bs.length,
        (derivative (a :: bs)).getD j 0 * t ^ j =
          (a :: bs).getD (j + 1) 0 * (((j : ℝ) + 1) * t ^ j) := by
      intro j hj
      have hj' : j < bs.length := Finset.mem_range.mp hj
      have : (derivative (a :: bs)).getD j 0 =
          (a :: bs).getD (j + 1) 0 * ((j + 1 : ℕ) : ℝ) := by
        simp [derivative, List.getD_eq_getElem?_getD, hj']
      rw [this]
      push_cast
      ring
    rw [Finset.sum_congr rfl hterm]
    have hrhs : ∑ i ∈ Finset.range (a :: bs).length,
        (a :: bs).getD i 0 * ((i : ℝ) * t ^ (i - 1)) =
          ∑ j ∈ Finset.range bs.length,
            (a :: bs).getD (j + 1) 0 * (((j + 1 : ℕ) : ℝ) * t ^ (j + 1 - 1)) +
            (a :: bs).getD 0 0 * ((0 : ℝ) * t ^ (0 - 1)) := by
      simpa using Finset.sum_range_succ'
        (fun i => (a :: bs).getD i 0 * ((i : ℝ) * t ^ (i - 1))) bs.length
    rw [hrhs]
    push_cast
    simp

lemma hasDerivAt_evalpoly (b : List ℝ) (t : ℝ) :
    HasDerivAt (fun x => evalpoly b x) (evalpoly (derivative b) t) t := by
  rw [evalpoly_derivative_eq_sum]
  have h : ∀ i ∈ Finset.range b.length,
      HasDerivAt (fun x : ℝ => b.getD i 0 * x ^ i)
        (b.getD i 0 * ((i : ℝ) * t ^ (i - 1))) t :=
    fun i _ => (hasDerivAt_pow i t).const_mul _
  simpa [evalpoly] using HasDerivAt.sum h

lemma evalpoly_derivative_eq_Icc (b : List ℝ) (t : ℝ) :
    evalpoly (derivative b) t =
      ∑ i ∈ Finset.Icc 1 (b.length - 1), (i : ℝ) * b.getD i 0 * t ^ (i - 1) := by
  rw [evalpoly_derivative_eq_sum]
  cases b with
  | nil => simp
  | cons a bs =>
    have hlen : 0 < (a :: bs).length := by simp
    rw [Finset.range_eq_Ico, Finset.sum_eq_sum_Ico_succ_bot hlen]
    have h1 : Finset.Icc 1 ((a :: bs).length - 1) =
        Finset.Ico 1 (a :: bs).length := by
      rw [← Nat.Ico_succ_right]
      congr 1
    rw [h1]
    simp only [Nat.cast_zero, zero_mul, mul_zero, zero_add]
    exact Finset.sum_congr rfl fun i _ => by ring

lemma recMul_zero (c : ℝ) (g : ℕ → ℝ) : recMul c g 0 = c := rfl

lemma recMul_succ (c : ℝ) (g : ℕ → ℝ) (n : ℕ) :
    recMul c g (n + 1) = g n * recMul c g n := rfl

lemma recMul_prod (c : ℝ) (g : ℕ → ℝ) (n : ℕ) :
    recMul c g n = c * ∏ k ∈ Finset.range n, g k := by
  induction n with
  | zero => simp [recMul]
  | succ m ih => rw [recMul_succ, ih, Finset.prod_range_succ]; ring

lemma getD_ofFn {α : Type} {n : ℕ} (g : Fin n → α) (i : ℕ) (hi : i < n)
    (d : α) : (List.ofFn g).getD i d = g ⟨i, hi⟩ := by
  rw [List.getD_eq_getElem?_getD, List.getElem?_ofFn]
  simp [List.ofFnNthVal, hi]

/-- Reduction of `predict` on a trained predictor. -/
lemma predict_eq (tppf : ℝ → ℕ → ℝ) (p : Predictor) (current : ℝ)
    (numDays : ℕ) (alpha : ℝ) (f : OLSFit) (hm : p.model = some f) :
    predict tppf p current numDays alpha = .ok
      (List.ofFn (fun j : Fin (numDays + 1) =>
         recMul current
           (fun n => f.value ((n : ℝ) + (p.analysisWindow : ℝ) - 1)) j),
       List.ofFn (fun j : Fin (numDays + 1) =>
         (recMul current
            (fun n => f.value ((n : ℝ) + (p.analysisWindow : ℝ) - 1) +
              f.predictionFit tppf ((n : ℝ) + (p.analysisWindow : ℝ) - 1) alpha) j,
          recMul current
            (fun n => f.value ((n : ℝ) + (p.analysisWindow : ℝ) - 1) -
              f.predictionFit tppf ((n : ℝ) + (p.analysisWindow : ℝ) - 1) alpha) j)),
       (List.range (numDays + 1)).map
         (fun n => n + p.trainingIndices.getD (p.trainingIndices.length - 1) 0)) := by
  rcases p with ⟨aw, lag, mo, fw, model, ti, vi, tsam, vsam⟩
  cases hm
  rfl

/-- Whether an `Except` computation succeeded. -/
def isOk {α : Type} : Except AnalysisError α → Bool
  | .ok _ => true
  | .error _ => false

/-- C7: for every fitted regressor with weights b_0..b_k and every time
t, `slope(t)` is the analytic derivative of `value(t)` and equals the
sum of `i * b_i * t^(i-1)` over `i = 1..k`, i.e. the evaluation of the
derivative-transformed weight vector at `t`. -/
theorem c7_slope_is_value_derivative (f : OLSFit) (t : ℝ) :
    HasDerivAt (fun x => f.value x) (f.slope t) t ∧
      f.slope t = ∑ i ∈ Finset.Icc 1 (f.weights.length - 1),
        (i : ℝ) * f.weights.getD i 0 * t ^ (i - 1) :=
  ⟨hasDerivAt_evalpoly f.weights t, evalpoly_derivative_eq_Icc f.weights t⟩

/-- C8: on a trained predictor, `predict(current, num_days, alpha)`
returns a case-count array of length `num_days + 1` starting at
`current` and obeying `cases[n+1] = growth[n] * cases[n]`, where
`growth[n]` is the trained model evaluated at the future offset
`n + analysis_window - 1`; the two bound columns obey the same
recursion driven by `growth ± prediction_fit`, and consequently
`cases[n] = current * prod of the first n growth values`. -/
theorem c8_predict_recursive_forecast (tppf : ℝ → ℕ → ℝ) (p : Predictor)
    (f : OLSFit) (current : ℝ) (numDays : ℕ) (alpha : ℝ)
    (hm : p.model = some f) :
    ∃ cases bounds idxs,
      predict tppf p current numDays alpha = .ok (cases, bounds, idxs) ∧
      cases.length = numDays + 1 ∧
      cases.getD 0 0 = current ∧
      (∀ n, n < numDays → cases.getD (n + 1) 0 =
        f.value ((n : ℝ) + (p.analysisWindow : ℝ) - 1) * cases.getD n 0) ∧
      (bounds.getD 0 (0, 0)).1 = current ∧
      (bounds.getD 0 (0, 0)).2 = current ∧
      (∀ n, n < numDays →
        (bounds.getD (n + 1) (0, 0)).1 =
          (f.value ((n : ℝ) + (p.analysisWindow : ℝ) - 1) +
            f.predictionFit tppf ((n : ℝ) + (p.analysisWindow : ℝ) - 1) alpha) *
            (bounds.getD n (0, 0)).1 ∧
        (bounds.getD (n + 1) (0, 0)).2 =
          (f.value ((n : ℝ) + (p.analysisWindow : ℝ) - 1) -
            f.predictionFit tppf ((n : ℝ) + (p.analysisWindow : ℝ) - 1) alpha) *
            (bounds.getD n (0, 0)).2) ∧
      (∀ n, n ≤ numDays → cases.getD n 0 =
        current * ∏ k ∈ Finset.range n,
          f.value ((k : ℝ) + (p.analysisWindow : ℝ) - 1)) := by
  refine ⟨_, _, _, predict_eq tppf p current numDays alpha f hm,
    by simp, ?_, ?_, ?_, ?_, ?_, ?_⟩
  · rw [getD_ofFn _ 0 (by omega)]; rfl
  · intro n hn
    rw [getD_ofFn _ (n + 1) (by omega), getD_ofFn _ n (by omega)]
    rfl
  · rw [getD_ofFn _ 0 (by omega)]; rfl
  · rw [getD_ofFn _ 0 (by omega)]; rfl
  · intro n hn
    rw [getD_ofFn _ (n + 1) (by omega), getD_ofFn _ n (by omega)]
    exact ⟨rfl, rfl⟩
  · intro n hn
    rw [getD_ofFn _ n (by omega)]
    exact recMul_prod current _ n

/-- A concrete fitted-regressor record, used to instantiate trained
predictor states in witnesses. -/
noncomputable def fitW : OLSFit :=
  { times := [], values := [], order := 0, weights := [1], rmse := 0,
    noise := 0, dof := 0, covar := fun _ _ => 0, variances := [] }

/-- A concrete trained predictor state. -/
noncomputable def predW : Predictor :=
  { mkPredictor 14 3 1 (-1) with model := some fitW }

/-- Witness for C8 at a concrete trained predictor. -/
theorem c8_predict_recursive_forecast_witness :
    ∃ cases bounds idxs,
      predict (fun _ _ => 0) predW 100 14 (95 / 100) = .ok (cases, bounds, idxs) ∧
      cases.length = 14 + 1 ∧
      cases.getD 0 0 = 100 ∧
      (∀ n, n < 14 → cases.getD (n + 1) 0 =
        fitW.value ((n : ℝ) + (predW.analysisWindow : ℝ) - 1) * cases.getD n 0) ∧
      (bounds.getD 0 (0, 0)).1 = 100 ∧
      (bounds.getD 0 (0, 0)).2 = 100 ∧
      (∀ n, n < 14 →
        (bounds.getD (n + 1) (0, 0)).1 =
          (fitW.value ((n : ℝ) + (predW.analysisWindow : ℝ) - 1) +
            fitW.predictionFit (fun _ _ => 0)
              ((n : ℝ) + (predW.analysisWindow : ℝ) - 1) (95 / 100)) *
            (bounds.getD n (0, 0)).1 ∧
        (bounds.getD (n + 1) (0, 0)).2 =
          (fitW.value ((n : ℝ) + (predW.analysisWindow : ℝ) - 1) -
            fitW.predictionFit (fun _ _ => 0)
              ((n : ℝ) + (predW.analysisWindow : ℝ) - 1) (95 / 100)) *
            (bounds.getD n (0, 0)).2) ∧
      (∀ n, n ≤ 14 → cases.getD n 0 =
        100 * ∏ k ∈ Finset.range n,
          fitW.value ((k : ℝ) + (predW.analysisWindow : ℝ) - 1)) :=
  c8_predict_recursive_forecast (fun _ _ => 0) predW fitW 100 14 (95 / 100) rfl

/-- C9: calling `predict` on an untrained predictor fails with the
not-trained error, and binding `predict` after `train` succeeds
exactly when `train` itself succeeded — so after a successful `train`
the error is never raised. -/
theorem c9_predict_requires_training :
    (∀ (tppf : ℝ → ℕ → ℝ) (p : Predictor) (c : ℝ) (nd : ℕ) (a : ℝ),
        p.model = none → predict tppf p c nd a = .error .notTrained) ∧
    (∀ (tppf : ℝ → ℕ → ℝ) (p : Predictor) (ts dg : List ℝ) (c : ℝ) (nd : ℕ)
        (a : ℝ),
        isOk ((train tppf p ts dg).bind fun r => predict tppf r.1 c nd a) =
          isOk (train tppf p ts dg)) := by
  constructor
  · intro tppf p c nd a hm
    rcases p with ⟨aw, lag, mo, fw, model, ti, vi, tsam, vsam⟩
    cases hm
    rfl
  · intro tppf p ts dg c nd a
    unfold train
    dsimp only
    cases hls : leastSquares
        ((List.range p.analysisWindow).map (Nat.cast : ℕ → ℝ))
        ((List.range' (ts.length - p.analysisWindow - p.reportingLag)
          p.analysisWindow).map (fun i => dg.getD i 0)) p.modelOrder with
    | error e => rfl
    | ok model => rfl

/-- Witness for C9 at a concrete untrained predictor. -/
theorem c9_predict_requires_training_witness :
    (mkPredictor 14 3 1 (-1)).model = none ∧
      predict (fun _ _ => 0) (mkPredictor 14 3 1 (-1)) 100 14 (95 / 100) =
        .error .notTrained :=
  ⟨rfl, c9_predict_requires_training.1 (fun _ _ => 0) (mkPredictor 14 3 1 (-1))
    100 14 (95 / 100) rfl⟩

/-- The `_sequence_growth_factor` output at an in-range index is the
branch expression of the loop body. -/
lemma sequenceGrowthFactor_getD (seq : List ℝ) (window i : ℕ)
    (hi : i < seq.length) :
    (sequenceGrowthFactor seq window).getD i none =
      (if ∀ v ∈ windowSlice seq window i, v < 0.5 then some 0
       else if ∀ v ∈ windowSlice seq window i, v < 0 then none
       else
         if (((windowSlice seq window i).zip
             (windowTimes seq.length window i)).filter
               fun p => decide (¬ p.1 < 0)).length < 3 then none
         else
           match leastSquares
               ((((windowSlice seq window i).zip
                 (windowTimes seq.length window i)).filter
                   fun p => decide (¬ p.1 < 0)).map fun p => p.2)
               ((((windowSlice seq window i).zip
                 (windowTimes seq.length window i)).filter
                   fun p => decide (¬ p.1 < 0)).map
                   fun p => Real.log (p.1 + 1e-10)) 1 with
           | .ok f => some (Real.exp (f.weights.getD 1 0))
           | .error _ => none) := by
  unfold sequenceGrowthFactor
  simp [List.getD_eq_getElem?_getD, List.getElem?_map, List.getElem?_range, hi]

/-- The all-below-0.5 branch forces a zero growth factor. -/
lemma sequenceGrowthFactor_small (seq : List ℝ) (window i : ℕ)
    (hi : i < seq.length)
    (h : ∀ v ∈ windowSlice seq window i, v < 0.5) :
    (sequenceGrowthFactor seq window).getD i none = some 0 := by
  rw [sequenceGrowthFactor_getD seq window i hi, if_pos h]

lemma sequenceGrowthFactor_length (seq : List ℝ) (window : ℕ) :
    (sequenceGrowthFactor seq window).length = seq.length := by
  simp [sequenceGrowthFactor]

/-- C1 counterexample: on the all-negative sequence `[-1, -1, -1]`
with window 3, every value in the window slice at index 1 is negative,
yet the growth factor there is the defined value `0`, not the NaN
sentinel: the all-below-0.5 branch fires first, so the claimed NaN
outcome never happens. -/
theorem c1_counterexample :
    (∀ v ∈ windowSlice [(-1 : ℝ), -1, -1] 3 1, v < 0) ∧
      (sequenceGrowthFactor [(-1 : ℝ), -1, -1] 3).getD 1 none = some 0 := by
  have hslice : windowSlice [(-1 : ℝ), -1, -1] 3 1 = [(-1 : ℝ), -1, -1] := by
    norm_num [windowSlice, winLo, winHi]
  have hneg : ∀ v ∈ windowSlice [(-1 : ℝ), -1, -1] 3 1, v < 0 := by
    rw [hslice]
    intro v hv
    fin_cases hv <;> norm_num
  refine ⟨hneg, sequenceGrowthFactor_small _ 3 1 (by norm_num) ?_⟩
  exact fun v hv => lt_trans (hneg v hv) (by norm_num)

/-- C1 (amended): if every value in the window slice feeding index i
is negative, the growth factor at i is the defined value 0: the
all-below-0.5 rule (operations.py line 164) fires before the
all-negative rule, which is unreachable for such windows. -/
theorem c1_all_negative_window_is_zero (seq : List ℝ) (window i : ℕ)
    (hi : i < seq.length)
    (hneg : ∀ v ∈ windowSlice seq window i, v < 0) :
    (sequenceGrowthFactor seq window).getD i none = some 0 :=
  sequenceGrowthFactor_small seq window i hi
    (fun v hv => lt_trans (hneg v hv) (by norm_num))

/-- Witness for C1 (amended) on a concrete all-negative window. -/
theorem c1_all_negative_window_is_zero_witness :
    (1 < ([(-2 : ℝ), -3, -4]).length) ∧
      (∀ v ∈ windowSlice [(-2 : ℝ), -3, -4] 3 1, v < 0) ∧
      (sequenceGrowthFactor [(-2 : ℝ), -3, -4] 3).getD 1 none = some 0 := by
  have hslice : windowSlice [(-2 : ℝ), -3, -4] 3 1 = [(-2 : ℝ), -3, -4] := by
    norm_num [windowSlice, winLo, winHi]
  have hneg : ∀ v ∈ windowSlice [(-2 : ℝ), -3, -4] 3 1, v < 0 := by
    rw [hslice]
    intro v hv
    fin_cases hv <;> norm_num
  exact ⟨by norm_num,
    hneg, c1_all_negative_window_is_zero _ 3 1 (by norm_num) hneg⟩

/-- The row of `growthFactorFromSlopes` at an in-range index. -/
lemma growthFactorFromSlopes_getD (slopes : List (ℝ × ℝ × ℝ)) (w i : ℕ)
    (hi : i < slopes.length) :
    (growthFactorFromSlopes slopes w).getD i (none, none, none) =
      (if argminIdx
          (if (sequenceGrowthFactor (slopes.map fun r => r.1) w).getD i none =
              some 0 then some 0
            else (sequenceGrowthFactor (slopes.map fun r => r.2.1) w).getD i none)
          (if (sequenceGrowthFactor (slopes.map fun r => r.1) w).getD i none =
              some 0 then some 0
            else (sequenceGrowthFactor (slopes.map fun r => r.2.2) w).getD i none)
          ≠ 0 then
        ((sequenceGrowthFactor (slopes.map fun r => r.1) w).getD i none,
         (if (sequenceGrowthFactor (slopes.map fun r => r.1) w).getD i none =
              some 0 then some 0
           else (sequenceGrowthFactor (slopes.map fun r => r.2.2) w).getD i none),
         (if (sequenceGrowthFactor (slopes.map fun r => r.1) w).getD i none =
              some 0 then some 0
           else (sequenceGrowthFactor (slopes.map fun r => r.2.1) w).getD i none))
      else
        ((sequenceGrowthFactor (slopes.map fun r => r.1) w).getD i none,
         (if (sequenceGrowthFactor (slopes.map fun r => r.1) w).getD i none =
              some 0 then some 0
           else (sequenceGrowthFactor (slopes.map fun r => r.2.1) w).getD i none),
         (if (sequenceGrowthFactor (slopes.map fun r => r.1) w).getD i none =
              some 0 then some 0
           else (sequenceGrowthFactor (slopes.map fun r => r.2.2) w).getD i none))) := by
  unfold growthFactorFromSlopes
  simp [List.getD_eq_getElem?_getD, List.getElem?_map, List.getElem?_range, hi]

/-- First components of the two re-sort outcomes agree. -/
lemma fst_of_sortRow (c : Prop) [Decidable c] (b x y z w : Option ℝ) :
    (if c then (b, x, y) else (b, z, w)).1 = b := by
  split <;> rfl

/-- C10: (a) a window slice whose values are all strictly below 0.5
(in particular an all-negative window) yields the best-fit growth
factor 0; (b) wherever the best-fit column of the growth-factor
output is exactly 0, the upper and lower bound columns are forced to
0 as well. -/
theorem c10_small_window_and_zero_forcing :
    (∀ (seq : List ℝ) (window i : ℕ), i < seq.length →
        (∀ v ∈ windowSlice seq window i, v < 0.5) →
        (sequenceGrowthFactor seq window).getD i none = some 0) ∧
    (∀ (slopes : List (ℝ × ℝ × ℝ)) (w i : ℕ), i < slopes.length →
        ((growthFactorFromSlopes slopes w).getD i (none, none, none)).1 =
          some 0 →
        ((growthFactorFromSlopes slopes w).getD i (none, none, none)).2.1 =
            some 0 ∧
          ((growthFactorFromSlopes slopes w).getD i (none, none, none)).2.2 =
            some 0) := by
  constructor
  · exact fun seq window i hi h => sequenceGrowthFactor_small seq window i hi h
  · intro slopes w i hi hrow
    rw [growthFactorFromSlopes_getD slopes w i hi] at hrow ⊢
    rw [fst_of_sortRow] at hrow
    simp only [hrow]
    simp [argminIdx]

/-- Witness for C10 at concrete inputs: a below-0.5 window and a
slopes matrix whose best-fit growth column is zero. -/
theorem c10_small_window_and_zero_forcing_witness :
    ((∀ v ∈ windowSlice [(0.2 : ℝ), 0.3, 0.1] 3 1, v < 0.5) ∧
      (sequenceGrowthFactor [(0.2 : ℝ), 0.3, 0.1] 3).getD 1 none = some 0) ∧
    (((growthFactorFromSlopes [((0 : ℝ), (0 : ℝ), (0 : ℝ)), (0, 0, 0), (0, 0, 0)]
        3).getD 1 (none, none, none)).1 = some 0 ∧
      ((growthFactorFromSlopes [((0 : ℝ), (0 : ℝ), (0 : ℝ)), (0, 0, 0), (0, 0, 0)]
        3).getD 1 (none, none, none)).2.1 = some 0 ∧
      ((growthFactorFromSlopes [((0 : ℝ), (0 : ℝ), (0 : ℝ)), (0, 0, 0), (0, 0, 0)]
        3).getD 1 (none, none, none)).2.2 = some 0) := by
  have hsmall : ∀ v ∈ windowSlice [(0.2 : ℝ), 0.3, 0.1] 3 1, v < 0.5 := by
    have hslice : windowSlice [(0.2 : ℝ), 0.3, 0.1] 3 1 =
        [(0.2 : ℝ), 0.3, 0.1] := by
      norm_num [windowSlice, winLo, winHi]
    rw [hslice]
    intro v hv
    fin_cases hv <;> norm_num
  have hzero : ∀ v ∈ windowSlice [(0 : ℝ), 0, 0] 3 1, v < 0.5 := by
    have hslice : windowSlice [(0 : ℝ), 0, 0] 3 1 = [(0 : ℝ), 0, 0] := by
      norm_num [windowSlice, winLo, winHi]
    rw [hslice]
    intro v hv
    fin_cases hv <;> norm_num
  have hmap : ([((0 : ℝ), (0 : ℝ), (0 : ℝ)), (0, 0, 0), (0, 0, 0)].map
      fun r => r.1) = [(0 : ℝ), 0, 0] := by norm_num
  have h0 : (sequenceGrowthFactor [(0 : ℝ), 0, 0] 3).getD 1 none = some 0 :=
    c10_small_window_and_zero_forcing.1 _ 3 1 (by norm_num) hzero
  have hb : ((growthFactorFromSlopes
      [((0 : ℝ), (0 : ℝ), (0 : ℝ)), (0, 0, 0), (0, 0, 0)] 3).getD 1
        (none, none, none)).1 = some 0 := by
    rw [growthFactorFromSlopes_getD _ 3 1 (by norm_num), hmap, fst_of_sortRow]
    exact h0
  exact ⟨⟨hsmall,
    c10_small_window_and_zero_forcing.1 _ 3 1 (by norm_num) hsmall⟩,
    hb, c10_small_window_and_zero_forcing.2 _ 3 1 (by norm_num) hb⟩
/-- Modelled from the spec (the claim's words): last observation
carried forward — the value of the most recent record whose day is at
or before `d`. -/
def locf (data : List Record) (d : ℕ) : ℚ :=
  ((data.filter fun r => decide (r.day ≤ d)).getLastD ⟨0, 0⟩).value

lemma locf_append_lt (l : List Record) (r : Record) (d : ℕ) (h : d < r.day) :
    locf (l ++ [r]) d = locf l d := by
  unfold locf
  rw [List.filter_append]
  have : (([r] : List Record).filter fun x => decide (x.day ≤ d)) = [] := by
    simp [List.filter, show ¬ r.day ≤ d by omega]
  rw [this, List.append_nil]

lemma locf_append_ge (l : List Record) (r : Record) (d : ℕ) (h : r.day ≤ d) :
    locf (l ++ [r]) d = r.value := by
  unfold locf
  rw [List.filter_append]
  have : (([r] : List Record).filter fun x => decide (x.day ≤ d)) = [r] := by
    simp [List.filter, h]
  rw [this, List.getLastD_concat]

lemma getD_set_list (s : List ℚ) (i p : ℕ) (v : ℚ) :
    (s.set i v).getD p 0 = if i = p ∧ i < s.length then v else s.getD p 0 := by
  rw [List.getD_eq_getElem?_getD, List.getD_eq_getElem?_getD, List.getElem?_set]
  by_cases h1 : i = p
  · subst h1
    by_cases h2 : i < s.length
    · simp [h2]
    · simp [h2]
      rw [List.getElem?_eq_none (by omega)]
      rfl
  · simp [h1]

lemma getD_replicate (n p : ℕ) : (List.replicate n (0 : ℚ)).getD p 0 = 0 := by
  rw [List.getD_eq_getElem?_getD, List.getElem?_replicate]
  by_cases h : p < n <;> simp [h]

lemma foldl_set_length (s : List ℚ) (a : ℕ) (ks : List ℕ) :
    (ks.foldl (fun s k => s.set (a + k) (s.getD a 0)) s).length = s.length := by
  induction ks generalizing s with
  | nil => rfl
  | cons k ks ih => rw [List.foldl_cons, ih, List.length_set]

lemma fillGap_length (s : List ℚ) (a b : ℕ) :
    (fillGap s a b).length = s.length :=
  foldl_set_length s a (List.range (b - a))

lemma fillGap_aux (s : List ℚ) (a : ℕ) : ∀ (n p : ℕ), a + n ≤ s.length →
    ((List.range n).foldl (fun s k => s.set (a + k) (s.getD a 0)) s).getD p 0 =
      if a ≤ p ∧ p < a + n then s.getD a 0 else s.getD p 0 := by
  intro n
  induction n with
  | zero =>
    intro p hn
    rw [List.range_zero, List.foldl_nil, if_neg (by omega)]
  | succ m ih =>
    intro p hn
    have hn' : a + m ≤ s.length := by omega
    rw [List.range_succ, List.foldl_append, List.foldl_cons, List.foldl_nil]
    have hlen' : ((List.range m).foldl
        (fun s k => s.set (a + k) (s.getD a 0)) s).length = s.length :=
      foldl_set_length s a (List.range m)
    have hga : ((List.range m).foldl
        (fun s k => s.set (a + k) (s.getD a 0)) s).getD a 0 = s.getD a 0 := by
      rw [ih a hn']
      split <;> rfl
    rw [getD_set_list, hga, hlen']
    by_cases hp : a + m = p ∧ a + m < s.length
    · rw [if_pos hp, if_pos (by omega)]
    · rw [if_neg hp, ih p hn']
      by_cases hq : a ≤ p ∧ p < a + m
      · rw [if_pos hq, if_pos (by omega)]
      · rw [if_neg hq, if_neg (by omega)]

lemma fillGap_getD (s : List ℚ) (a b : ℕ) (hb : b ≤ s.length)
    (hab : a ≤ b) (p : ℕ) :
    (fillGap s a b).getD p 0 =
      if a ≤ p ∧ p < b then s.getD a 0 else s.getD p 0 := by
  unfold fillGap
  rw [fillGap_aux s a (b - a) p (by omega)]
  by_cases hq : a ≤ p ∧ p < b
  · rw [if_pos (by omega), if_pos hq]
  · rw [if_neg (by omega), if_neg hq]

lemma getD_eq_get (data : List Record) (d0 : Record) (j : ℕ)
    (hj : j < data.length) :
    data.getD j d0 = data.get ⟨j, hj⟩ := by
  rw [List.getD_eq_getElem?_getD, List.getElem?_eq_getElem hj]
  rfl

lemma take_decomp (data : List Record) (d0 : Record) (m : ℕ)
    (hm : m < data.length) :
    data.take (m + 1) = data.take m ++ [data.getD m d0] := by
  rw [List.take_succ, List.getElem?_eq_getElem hm,
    getD_eq_get data d0 m hm]
  rfl

lemma enum_take_decomp (data : List Record) (d0 : Record) (m : ℕ)
    (hm : m < data.length) :
    data.enum.take (m + 1) = data.enum.take m ++ [(m, data.getD m d0)] := by
  rw [List.take_succ]
  have h1 : (data.enum)[m]? = some (m, data.getD m d0) := by
    show (List.enumFrom 0 data)[m]? = _
    rw [List.getElem?_enumFrom, List.getElem?_eq_getElem hm,
      getD_eq_get data d0 m hm]
    simp
  rw [h1]
  rfl

lemma getLastD_eq_getD (data : List Record) (d0 : Record) (rest : List Record)
    (_hdata : data = d0 :: rest) :
    data.getLastD d0 = data.getD (data.length - 1) d0 := by
  rw [List.getLastD_eq_getLast?, List.getLast?_eq_getElem?,
    List.getD_eq_getElem?_getD]

lemma locf_take_ge (data : List Record) (d0 : Record) (m d : ℕ)
    (hm : 1 ≤ m) (hm2 : m ≤ data.length)
    (hd : (data.getD (m - 1) d0).day ≤ d) :
    locf (data.take m) d = (data.getD (m - 1) d0).value := by
  have hdec : data.take m = data.take (m - 1) ++ [data.getD (m - 1) d0] := by
    have := take_decomp data d0 (m - 1) (by omega)
    rwa [show m - 1 + 1 = m by omega] at this
  rw [hdec, locf_append_ge _ _ _ hd]

/-- The invariant of the record loop in `TimeSeries.__init__`: after
processing the first `m` records of a date-sorted, threshold-clean
record list, every array position up to the last processed record's
day index holds the last-observation-carried-forward value, and every
later position is still zero. -/
lemma build_invariant (data : List Record) (d0 : Record) (rest : List Record)
    (minV : ℚ)
    (hdata : data = d0 :: rest)
    (hmono : ∀ i j : Fin data.length, (i : ℕ) < (j : ℕ) →
      (data.get i).day < (data.get j).day)
    (hmin : ∀ r ∈ data, minV ≤ r.value) :
    ∀ m, 1 ≤ m → m ≤ data.length →
      (((data.enum.take m).foldl (buildStep data d0.day minV)
          (List.replicate ((data.getLastD d0).day - d0.day + 1) 0)).length =
        (data.getLastD d0).day - d0.day + 1) ∧
      (∀ p, p ≤ (data.getD (m - 1) d0).day - d0.day →
        ((data.enum.take m).foldl (buildStep data d0.day minV)
            (List.replicate ((data.getLastD d0).day - d0.day + 1) 0)).getD p 0 =
          locf (data.take m) (d0.day + p)) ∧
      (∀ p, (data.getD (m - 1) d0).day - d0.day < p →
        ((data.enum.take m).foldl (buildStep data d0.day minV)
            (List.replicate ((data.getLastD d0).day - d0.day + 1) 0)).getD p 0 =
          0) := by
  have hlen0 : 0 < data.length := by rw [hdata]; simp
  have hget0 : data.getD 0 d0 = d0 := by rw [hdata]; rfl
  have hmonoD : ∀ j k, j < k → k < data.length →
      (data.getD j d0).day < (data.getD k d0).day := by
    intro j k hjk hk
    rw [getD_eq_get data d0 j (by omega), getD_eq_get data d0 k hk]
    exact hmono _ _ hjk
  have hstart : ∀ j, j < data.length → d0.day ≤ (data.getD j d0).day := by
    intro j hj
    rcases Nat.eq_zero_or_pos j with h | h
    · subst h; rw [hget0]
    · have := hmonoD 0 j h hj
      rw [hget0] at this; omega
  have hlastD : data.getLastD d0 = data.getD (data.length - 1) d0 :=
    getLastD_eq_getD data d0 rest hdata
  have hub : ∀ j, j < data.length →
      (data.getD j d0).day ≤ (data.getLastD d0).day := by
    intro j hj
    rw [hlastD]
    rcases Nat.lt_or_ge j (data.length - 1) with h | h
    · exact le_of_lt (hmonoD j (data.length - 1) h (by omega))
    · have : j = data.length - 1 := by omega
      rw [this]
  have hidx_ge : ∀ j, j < data.length → j ≤ (data.getD j d0).day - d0.day := by
    intro j
    induction j with
    | zero => intro _; omega
    | succ k ih =>
      intro hk
      have h1 := ih (by omega)
      have h2 := hmonoD k (k + 1) (by omega) hk
      have h3 := hstart k (by omega)
      omega
  intro m
  induction m with
  | zero => intro h; omega
  | succ m ih =>
    intro _ hm2
    rcases Nat.eq_zero_or_pos m with hm0 | hm0
    · -- base case: m + 1 = 1, processing record 0 only
      subst hm0
      have htake1 : data.enum.take 1 = [(0, d0)] := by
        rw [hdata]; rfl
      rw [htake1]
      simp only [List.foldl_cons, List.foldl_nil]
      rw [buildStep, if_neg (by
        have := hmin d0 (by rw [hdata]; simp)
        simp only [not_lt]
        exact this)]
      have hidx0 : d0.day - d0.day = 0 := by omega
      simp only [hidx0]
      rw [if_neg (by omega)]
      have hD : 0 < (data.getLastD d0).day - d0.day + 1 := by omega
      refine ⟨by simp, ?_, ?_⟩
      · intro p hp
        rw [hget0] at hp
        have hp0 : p = 0 := by omega
        subst hp0
        rw [getD_set_list]
        rw [if_pos ⟨rfl, by rw [List.length_replicate]; omega⟩]
        have htk : data.take 1 = [d0] := by rw [hdata]; rfl
        rw [htk]
        unfold locf
        simp [List.filter]
      · intro p hp
        rw [hget0] at hp
        rw [getD_set_list, if_neg (by omega), getD_replicate]
    · -- inductive step: process record m on top of the first m records
      have hmlt : m < data.length := by omega
      obtain ⟨ihlen, ihA, ihB⟩ := ih hm0 (by omega)
      rw [enum_take_decomp data d0 m hmlt, List.foldl_append,
        List.foldl_cons, List.foldl_nil]
      rw [buildStep, if_neg (by
        have := hmin (data.getD m d0) (by
          rw [getD_eq_get data d0 m hmlt]; exact List.get_mem data m hmlt)
        simp only [not_lt]
        exact this)]
      dsimp only
      have hdef : data.getD (m - 1) (⟨0, 0⟩ : Record) = data.getD (m - 1) d0 := by
        rw [getD_eq_get data ⟨0, 0⟩ (m - 1) (by omega),
          getD_eq_get data d0 (m - 1) (by omega)]
      rw [hdef]
      have hmm : m - 1 < data.length := by omega
      have him1_lt : (data.getD (m - 1) d0).day < (data.getD m d0).day :=
        hmonoD (m - 1) m (by omega) hmlt
      have hstart_m : d0.day ≤ (data.getD m d0).day := hstart m hmlt
      have hstart_m1 : d0.day ≤ (data.getD (m - 1) d0).day := hstart (m - 1) hmm
      have hub_m : (data.getD m d0).day ≤ (data.getLastD d0).day := hub m hmlt
      -- names for the two day indices
      have him1im : (data.getD (m - 1) d0).day - d0.day <
          (data.getD m d0).day - d0.day := by omega
      have hsucc : m + 1 - 1 = m := by omega
      rw [hsucc]
      have hgetDm1 : (data.getD (m + 1 - 1) d0) = data.getD m d0 := by rw [hsucc]
      -- the day of record m as an absolute day number
      have habs : d0.day + ((data.getD m d0).day - d0.day) =
          (data.getD m d0).day := by omega
      -- the common post-state analysis
      have hsetlen : ∀ s1 : List ℚ, s1.length =
          (data.getLastD d0).day - d0.day + 1 →
          ((s1.set ((data.getD m d0).day - d0.day)
            (data.getD m d0).value).length =
              (data.getLastD d0).day - d0.day + 1) := by
        intro s1 h1
        rw [List.length_set, h1]
      by_cases hgap : m < (data.getD m d0).day - d0.day
      · -- gap: back-fill then store
        rw [if_pos hgap]
        have hfilllen : (fillGap ((data.enum.take m).foldl
            (buildStep data d0.day minV)
            (List.replicate ((data.getLastD d0).day - d0.day + 1) 0))
            ((data.getD (m - 1) d0).day - d0.day)
            ((data.getD m d0).day - d0.day)).length =
            (data.getLastD d0).day - d0.day + 1 := by
          rw [fillGap_length, ihlen]
        refine ⟨hsetlen _ hfilllen, ?_, ?_⟩
        · intro p hp
          rw [getD_set_list]
          by_cases hpm : p = (data.getD m d0).day - d0.day
          · rw [if_pos (by
              refine ⟨hpm.symm, ?_⟩
              rw [hfilllen]; omega)]
            rw [take_decomp data d0 m hmlt, hpm, habs,
              locf_append_ge _ _ _ (le_refl _)]
          · rw [if_neg (by
              intro hcon
              exact hpm hcon.1.symm)]
            have hplt : p < (data.getD m d0).day - d0.day := by omega
            rw [fillGap_getD _ _ _ (by rw [ihlen]; omega) (by omega) p]
            have hlocf_lt : locf (data.take (m + 1)) (d0.day + p) =
                locf (data.take m) (d0.day + p) := by
              rw [take_decomp data d0 m hmlt]
              exact locf_append_lt _ _ _ (by omega)
            rw [hlocf_lt]
            by_cases hpin : (data.getD (m - 1) d0).day - d0.day ≤ p ∧
                p < (data.getD m d0).day - d0.day
            · rw [if_pos hpin]
              rw [ihA ((data.getD (m - 1) d0).day - d0.day) (le_refl _)]
              rw [locf_take_ge data d0 m _ hm0 (by omega) (by omega),
                locf_take_ge data d0 m _ hm0 (by omega) (by omega)]
            · rw [if_neg hpin]
              have hple : p ≤ (data.getD (m - 1) d0).day - d0.day := by omega
              exact ihA p hple
        · intro p hp
          rw [getD_set_list, if_neg (by omega),
            fillGap_getD _ _ _ (by rw [ihlen]; omega) (by omega) p,
            if_neg (by omega)]
          exact ihB p (by omega)
      · -- no gap: the day index equals the enumeration index
        rw [if_neg hgap]
        have hidxm := hidx_ge m hmlt
        have hime : (data.getD m d0).day - d0.day = m := by omega
        have him1e : (data.getD (m - 1) d0).day - d0.day = m - 1 := by
          have := hidx_ge (m - 1) hmm
          omega
        refine ⟨hsetlen _ ihlen, ?_, ?_⟩
        · intro p hp
          rw [getD_set_list]
          by_cases hpm : p = (data.getD m d0).day - d0.day
          · rw [if_pos (by
              refine ⟨hpm.symm, ?_⟩
              rw [ihlen]; omega)]
            rw [take_decomp data d0 m hmlt, hpm, habs,
              locf_append_ge _ _ _ (le_refl _)]
          · rw [if_neg (by
              intro hcon
              exact hpm hcon.1.symm)]
            have hplt : p < (data.getD m d0).day - d0.day := by omega
            have hlocf_lt : locf (data.take (m + 1)) (d0.day + p) =
                locf (data.take m) (d0.day + p) := by
              rw [take_decomp data d0 m hmlt]
              exact locf_append_lt _ _ _ (by omega)
            rw [hlocf_lt]
            exact ihA p (by omega)
        · intro p hp
          rw [getD_set_list, if_neg (by omega)]
          exact ihB p (by omega)

/-- C4: `TimeSeries` construction back-fills skipped days with the
most recent known value.  Concretely, records on days 0, 1, 4 with
values [10, 12, 20] produce the dense series [10, 12, 12, 12, 20]
(indices 2 and 3 both 12); in general, for a date-sorted record list
every in-range day `d` gets the last-observation-carried-forward value
`locf data d`. -/
theorem c4_gap_fill_carry_forward :
    buildSamples [⟨0, 10⟩, ⟨1, 12⟩, ⟨4, 20⟩] 0 = [10, 12, 12, 12, 20] ∧
    (∀ (data : List Record) (d0 : Record) (rest : List Record) (minV : ℚ)
        (d : ℕ),
      data = d0 :: rest →
      data.Pairwise (fun a b => a.day < b.day) →
      (∀ r ∈ data, minV ≤ r.value) →
      d0.day ≤ d → d ≤ (data.getLastD d0).day →
      (buildSamples data minV).getD (d - d0.day) 0 = locf data d) := by
  constructor
  · decide
  · intro data d0 rest minV d hdata hsort hmin hd1 hd2
    have hmono : ∀ i j : Fin data.length, (i : ℕ) < (j : ℕ) →
        (data.get i).day < (data.get j).day := by
      intro i j hij
      exact List.pairwise_iff_get.mp hsort i j hij
    obtain ⟨hlen, hA, hB⟩ := build_invariant data d0 rest minV hdata hmono hmin
      data.length (by rw [hdata]; simp) (le_refl _)
    have hbuild : buildSamples data minV =
        (data.enum.take data.length).foldl (buildStep data d0.day minV)
          (List.replicate ((data.getLastD d0).day - d0.day + 1) 0) := by
      rw [show data.length = data.enum.length from List.enum_length.symm,
        List.take_length]
      subst hdata
      rfl
    have hlast : data.getLastD d0 = data.getD (data.length - 1) d0 :=
      getLastD_eq_getD data d0 rest hdata
    have hp := hA (d - d0.day) (by rw [← hlast]; omega)
    rw [List.take_length] at hp
    have habs : d0.day + (d - d0.day) = d := by omega
    rw [habs] at hp
    rw [hbuild]
    exact hp

/-- Witness for the general conjunct of C4 at the concrete record
list of the example, read off at day 3 (a gap day). -/
theorem c4_gap_fill_carry_forward_witness :
    (([⟨0, 10⟩, ⟨1, 12⟩, ⟨4, 20⟩] : List Record) =
        ⟨0, 10⟩ :: [⟨1, 12⟩, ⟨4, 20⟩]) ∧
      ([⟨0, 10⟩, ⟨1, 12⟩, ⟨4, 20⟩] : List Record).Pairwise
        (fun a b => a.day < b.day) ∧
      (∀ r ∈ ([⟨0, 10⟩, ⟨1, 12⟩, ⟨4, 20⟩] : List Record), (0 : ℚ) ≤ r.value) ∧
      (buildSamples [⟨0, 10⟩, ⟨1, 12⟩, ⟨4, 20⟩] 0).getD
          (3 - (⟨0, 10⟩ : Record).day) 0 =
        locf [⟨0, 10⟩, ⟨1, 12⟩, ⟨4, 20⟩] 3 := by
  refine ⟨rfl, by decide, by decide, ?_⟩
  exact c4_gap_fill_carry_forward.2 [⟨0, 10⟩, ⟨1, 12⟩, ⟨4, 20⟩] ⟨0, 10⟩
    [⟨1, 12⟩, ⟨4, 20⟩] 0 3 rfl (by decide) (by decide) (by decide) (by decide)

/-- C5 counterexample: `times = [0, 0, 0]`, `values = [1, 2, 3]`,
`order = 1` — the lengths agree and there are strictly more than
`order + 1` samples, yet construction fails: the normal matrix is
singular, so `np.linalg.inv` raises.  The claim says construction
succeeds for all such inputs. -/
theorem c5_counterexample :
    (([0, 0, 0] : List ℝ).length = ([1, 2, 3] : List ℝ).length) ∧
      ¬(([1, 2, 3] : List ℝ).length ≤ 1 + 1) ∧
      leastSquares [0, 0, 0] [1, 2, 3] 1 = .error .singular := by
  refine ⟨rfl, by norm_num, ?_⟩
  unfold leastSquares
  rw [if_neg (by norm_num), if_neg (by norm_num), if_pos ?_]
  show (normalMatrix [0, 0, 0] 2).det = 0
  rw [det_normalMatrix_two]
  unfold linDet powSum
  simp [Fin.sum_univ_succ]

/-- C5 (amended): `LeastSquares` construction fails exactly when the
two arrays have different lengths, or the sample count is at most
`order + 1`, or the normal matrix `X^T X` is singular (for example
when the times have fewer than `order + 1` distinct values); for all
other 1-D inputs construction succeeds. -/
theorem c5_construction_error_conditions (times values : List ℝ)
    (order : ℕ) :
    (∃ e, leastSquares times values order = .error e) ↔
      (times.length ≠ values.length ∨ values.length ≤ order + 1 ∨
        (normalMatrix times (order + 1)).det = 0) := by
  constructor
  · rintro ⟨e, he⟩
    by_contra hcon
    push_neg at hcon
    obtain ⟨h1, h2, h3⟩ := hcon
    rw [leastSquares_ok times values order h1 (by omega) h3] at he
    exact Except.noConfusion he
  · intro h
    unfold leastSquares
    rcases Classical.em (times.length ≠ values.length) with h1 | h1
    · rw [if_pos h1]; exact ⟨_, rfl⟩
    · rw [if_neg h1]
      rcases Classical.em (values.length ≤ order + 1) with h2 | h2
      · rw [if_pos h2]; exact ⟨_, rfl⟩
      · rw [if_neg h2]
        have h3 : (normalMatrix times (order + 1)).det = 0 := by tauto
        rw [if_pos h3]
        exact ⟨_, rfl⟩

lemma getD_map_range {α : Type} (f : ℕ → α) (n i : ℕ) (hi : i < n) (d : α) :
    ((List.range n).map f).getD i d = f i := by
  rw [List.getD_eq_getElem?_getD, List.getElem?_map, List.getElem?_range hi]
  rfl

/-- C6 counterexample: `local_regression` with `window = 3` and
`order = 1` fails on any series — the clipped boundary window at
index 0 has only two points, no more than `order + 1`, so the inner
`LeastSquares` construction raises.  Here on the five-point series
`[0, 1, 2, 3, 4]`, contradicting the claim that every `window >= 3`
returns one fitted regressor per index. -/
theorem c6_counterexample :
    localRegression [(0 : ℝ), 1, 2, 3, 4] 3 false 1 =
      .error .tooFewSamples := by
  rfl

/-- C6 (amended): `local_regression` fails with the invalid-window
error for `window < 3`; and for `window >= 3` it returns one fitted
regressor per index, fit over exactly the clipped sub-window
`[max(0, i - window//2), min(N-1, i + window//2)]` with integer day
offsets as the time axis, provided the smallest clipped window still
has more than `order + 1` points (i.e. `order + 1 <
min(N, window//2 + 1)`); with `window = 3` and `order >= 1` that
condition fails and the boundary fit raises instead. -/
theorem c6_local_regression_windows :
    (∀ (samples : List ℝ) (logD : Bool) (order window : ℕ), window < 3 →
      localRegression samples window logD order = .error .invalidWindow) ∧
    (∀ (samples : List ℝ) (logD : Bool) (order window : ℕ), 3 ≤ window →
      order + 1 < min samples.length (window / 2 + 1) →
      ∃ fits, localRegression samples window logD order = .ok fits ∧
        fits.length = samples.length ∧
        ∀ i, i < samples.length →
          (fits.getD i (olsFitOf [] [] order)).times =
              windowTimes samples.length window i ∧
            (fits.getD i (olsFitOf [] [] order)).values =
              windowSlice (if logD then samples.map Real.log else samples)
                window i ∧
            (fits.getD i (olsFitOf [] [] order)).order = order) := by
  constructor
  · intro samples logD order window hw
    unfold localRegression
    rw [if_pos hw]
  · intro samples logD order window hw hcount
    unfold localRegression
    rw [if_neg (by omega)]
    have hxlen : (if logD then samples.map Real.log else samples).length =
        samples.length := by
      cases logD <;> simp
    have hstep : ∀ i ∈ List.range samples.length,
        leastSquares (windowTimes samples.length window i)
          (windowSlice (if logD then samples.map Real.log else samples)
            window i) order =
          .ok (olsFitOf (windowTimes samples.length window i)
            (windowSlice (if logD then samples.map Real.log else samples)
              window i) order) := by
      intro i hi
      have hiN : i < samples.length := List.mem_range.mp hi
      have hslen : (windowSlice
          (if logD then samples.map Real.log else samples) window i).length =
          winHi samples.length window i - winLo window i := by
        have := windowSlice_length
          (if logD then samples.map Real.log else samples) window i
          (by rw [hxlen]; exact hiN)
        rwa [hxlen] at this
      refine leastSquares_ok_of_inj _ _ _ ?_ ?_ (windowTimes_inj _ _ _)
      · rw [windowTimes_length, hslen]
      · rw [hslen]
        have := window_count_lower samples.length window i hiN
        omega
    refine ⟨_, mapM_ok _ _ _ hstep, by simp, ?_⟩
    intro i hi
    rw [getD_map_range _ _ _ hi]
    exact ⟨rfl, rfl, rfl⟩

/-- Witness for C6 (amended): the invalid-window branch at
`window = 2` and a successful five-fit regression at `window = 5`,
`order = 1` over a five-point series. -/
theorem c6_local_regression_windows_witness :
    (localRegression [(1 : ℝ), 2, 3] 2 false 1 = .error .invalidWindow) ∧
      ∃ fits, localRegression [(1 : ℝ), 2, 3, 4, 5] 5 false 1 = .ok fits ∧
        fits.length = ([(1 : ℝ), 2, 3, 4, 5] : List ℝ).length ∧
        ∀ i, i < ([(1 : ℝ), 2, 3, 4, 5] : List ℝ).length →
          (fits.getD i (olsFitOf [] [] 1)).times =
              windowTimes ([(1 : ℝ), 2, 3, 4, 5] : List ℝ).length 5 i ∧
            (fits.getD i (olsFitOf [] [] 1)).values =
              windowSlice (if false then
                ([(1 : ℝ), 2, 3, 4, 5] : List ℝ).map Real.log
                else [(1 : ℝ), 2, 3, 4, 5]) 5 i ∧
            (fits.getD i (olsFitOf [] [] 1)).order = 1 :=
  ⟨c6_local_regression_windows.1 [(1 : ℝ), 2, 3] false 1 2 (by norm_num),
    c6_local_regression_windows.2 [(1 : ℝ), 2, 3, 4, 5] false 1 5 (by norm_num)
      (by norm_num)⟩

/-- Modelled from the spec: the ordinary-least-squares slope of `ys`
against `ts` in closed form, used to express the regression the spec
describes in words ("regress log(x) against the ... day offset ...
the estimate is exp(weight[1])"). -/
noncomputable def linFitSlope (ts ys : List ℝ) : ℝ :=
  ((ts.length : ℝ) * (∑ i ∈ Finset.range ts.length, ts.getD i 0 * ys.getD i 0) -
      (∑ i ∈ Finset.range ts.length, ts.getD i 0) *
        (∑ i ∈ Finset.range ts.length, ys.getD i 0)) /
    ((ts.length : ℝ) * (∑ i ∈ Finset.range ts.length, ts.getD i 0 ^ 2) -
      (∑ i ∈ Finset.range ts.length, ts.getD i 0) ^ 2)

lemma getD_eq_get_real (l : List ℝ) (j : ℕ) (hj : j < l.length) :
    l.getD j 0 = l.get ⟨j, hj⟩ := by
  rw [List.getD_eq_getElem?_getD, List.getElem?_eq_getElem hj]
  rfl

/-- The matrix-derived order-1 slope weight equals the closed-form
OLS slope. -/
lemma olsWeights_one_eq_linFitSlope (tv ys : List ℝ) :
    olsWeights tv ys 1 1 = linFitSlope tv ys := by
  rw [olsWeights_linear_one]
  unfold linFitSlope linDet powSum mixSum
  have h0 : (∑ i : Fin tv.length, tv.get i ^ 0) = (tv.length : ℝ) := by
    simp
  have e1 : (∑ i : Fin tv.length, tv.get i ^ 1) =
      ∑ i : Fin tv.length, tv.getD (↑i) 0 :=
    Finset.sum_congr rfl fun i _ => by
      rw [pow_one, getD_eq_get_real tv i.1 i.2]
  have h1 : (∑ i : Fin tv.length, tv.get i ^ 1) =
      ∑ i ∈ Finset.range tv.length, tv.getD i 0 := by
    rw [e1]
    exact Fin.sum_univ_eq_sum_range (fun j => tv.getD j 0) tv.length
  have e2 : (∑ i : Fin tv.length, tv.get i ^ 2) =
      ∑ i : Fin tv.length, tv.getD (↑i) 0 ^ 2 :=
    Finset.sum_congr rfl fun i _ => by
      rw [getD_eq_get_real tv i.1 i.2]
  have h2 : (∑ i : Fin tv.length, tv.get i ^ 2) =
      ∑ i ∈ Finset.range tv.length, tv.getD i 0 ^ 2 := by
    rw [e2]
    exact Fin.sum_univ_eq_sum_range (fun j => tv.getD j 0 ^ 2) tv.length
  have e3 : (∑ i : Fin tv.length, tv.get i ^ 0 * ys.getD i 0) =
      ∑ i : Fin tv.length, ys.getD (↑i) 0 :=
    Finset.sum_congr rfl fun i _ => by
      rw [pow_zero, one_mul]
  have h3 : (∑ i : Fin tv.length, tv.get i ^ 0 * ys.getD i 0) =
      ∑ i ∈ Finset.range tv.length, ys.getD i 0 := by
    rw [e3]
    exact Fin.sum_univ_eq_sum_range (fun j => ys.getD j 0) tv.length
  have e4 : (∑ i : Fin tv.length, tv.get i ^ 1 * ys.getD i 0) =
      ∑ i : Fin tv.length, tv.getD (↑i) 0 * ys.getD (↑i) 0 :=
    Finset.sum_congr rfl fun i _ => by
      rw [pow_one, getD_eq_get_real tv i.1 i.2]
  have h4 : (∑ i : Fin tv.length, tv.get i ^ 1 * ys.getD i 0) =
      ∑ i ∈ Finset.range tv.length, tv.getD i 0 * ys.getD i 0 := by
    rw [e4]
    exact Fin.sum_univ_eq_sum_range (fun j => tv.getD j 0 * ys.getD j 0)
      tv.length
  rw [h0, h1, h2, h3, h4, div_eq_inv_mul]
  ring_nf

/-- The closed-form OLS slope is invariant under shifting the time
axis by a constant (re-centering the window does not change the
fitted slope). -/
lemma linFitSlope_shift (ts ys : List ℝ) (c : ℝ) :
    linFitSlope (ts.map (fun t => t - c)) ys = linFitSlope ts ys := by
  unfold linFitSlope
  have hlen : (ts.map (fun t => t - c)).length = ts.length :=
    List.length_map ts _
  rw [hlen]
  have hgd : ∀ i ∈ Finset.range ts.length,
      (ts.map (fun t => t - c)).getD i 0 = ts.getD i 0 - c := by
    intro i hi
    have hi' : i < ts.length := Finset.mem_range.mp hi
    rw [List.getD_eq_getElem?_getD, List.getElem?_map,
      List.getElem?_eq_getElem hi', List.getD_eq_getElem?_getD,
      List.getElem?_eq_getElem hi']
    rfl
  have s1 : (∑ i ∈ Finset.range ts.length,
      (ts.map (fun t => t - c)).getD i 0 * ys.getD i 0) =
      (∑ i ∈ Finset.range ts.length, ts.getD i 0 * ys.getD i 0) -
        c * ∑ i ∈ Finset.range ts.length, ys.getD i 0 := by
    have e : (∑ i ∈ Finset.range ts.length,
        (ts.map (fun t => t - c)).getD i 0 * ys.getD i 0) =
        ∑ i ∈ Finset.range ts.length,
          (ts.getD i 0 * ys.getD i 0 - c * ys.getD i 0) :=
      Finset.sum_congr rfl fun i hi => by rw [hgd i hi]; ring
    rw [e, Finset.sum_sub_distrib, ← Finset.mul_sum]
  have s2 : (∑ i ∈ Finset.range ts.length,
      (ts.map (fun t => t - c)).getD i 0) =
      (∑ i ∈ Finset.range ts.length, ts.getD i 0) - (ts.length : ℝ) * c := by
    have e : (∑ i ∈ Finset.range ts.length,
        (ts.map (fun t => t - c)).getD i 0) =
        ∑ i ∈ Finset.range ts.length, (ts.getD i 0 - c) :=
      Finset.sum_congr rfl fun i hi => by rw [hgd i hi]
    rw [e, Finset.sum_sub_distrib, Finset.sum_const, Finset.card_range,
      nsmul_eq_mul]
  have s3 : (∑ i ∈ Finset.range ts.length,
      (ts.map (fun t => t - c)).getD i 0 ^ 2) =
      (∑ i ∈ Finset.range ts.length, ts.getD i 0 ^ 2) -
        2 * c * (∑ i ∈ Finset.range ts.length, ts.getD i 0) +
        (ts.length : ℝ) * c ^ 2 := by
    have e : (∑ i ∈ Finset.range ts.length,
        (ts.map (fun t => t - c)).getD i 0 ^ 2) =
        ∑ i ∈ Finset.range ts.length,
          (ts.getD i 0 ^ 2 - 2 * c * ts.getD i 0 + c ^ 2) :=
      Finset.sum_congr rfl fun i hi => by rw [hgd i hi]; ring
    rw [e, Finset.sum_add_distrib, Finset.sum_sub_distrib, ← Finset.mul_sum,
      Finset.sum_const, Finset.card_range, nsmul_eq_mul]
  rw [s1, s2, s3]
  congr 1 <;> ring

lemma olsFitOf_weights_getD_one (tv ys : List ℝ) :
    (olsFitOf tv ys 1).weights.getD 1 0 = olsWeights tv ys 1 1 := by
  have h : (olsFitOf tv ys 1).weights = List.ofFn (olsWeights tv ys 1) := rfl
  rw [h, olsWeights_linear_list]
  rfl

lemma windowTimes_pairwise (N window i : ℕ) :
    (windowTimes N window i).Pairwise (fun a b => a ≠ b) := by
  rw [List.pairwise_iff_get]
  intro a b hab heq
  have h := windowTimes_inj N window i a b heq
  rw [h] at hab
  exact lt_irrefl _ hab

lemma get_inj_of_pairwise_ne (l : List ℝ)
    (h : l.Pairwise (fun a b => a ≠ b)) :
    ∀ i j : Fin l.length, l.get i = l.get j → i = j := by
  intro i j heq
  rcases lt_trichotomy (i : ℕ) (j : ℕ) with hlt | he | hgt
  · exact absurd heq (List.pairwise_iff_get.mp h i j hlt)
  · exact Fin.ext he
  · exact absurd heq.symm (List.pairwise_iff_get.mp h j i hgt)

/-- The amended per-index growth computation: the code's branch
structure applied to a sequence, with the surviving points regressed
against re-centered day offsets via the closed-form OLS slope. -/
noncomputable def amendedGrowthEstimate (x : List ℝ) (window i : ℕ) :
    Option ℝ :=
  if ∀ v ∈ windowSlice x window i, v < 0.5 then some 0
  else if ∀ v ∈ windowSlice x window i, v < 0 then none
  else
    if (((windowSlice x window i).zip (windowTimes x.length window i)).filter
        fun p => decide (¬ p.1 < 0)).length < 3 then none
    else
      some (Real.exp (linFitSlope
        ((((windowSlice x window i).zip
          (windowTimes x.length window i)).filter
            fun p => decide (¬ p.1 < 0)).map fun p => p.2 - (i : ℝ))
        ((((windowSlice x window i).zip
          (windowTimes x.length window i)).filter
            fun p => decide (¬ p.1 < 0)).map
            fun p => Real.log (p.1 + 1e-10))))

/-- The loop body of `_sequence_growth_factor` computes exactly the
amended estimate: the matrix-based order-1 fit on the raw day offsets
has the same slope as the closed-form fit on re-centered offsets. -/
lemma sequenceGrowthFactor_eq_amended (x : List ℝ) (window i : ℕ)
    (hi : i < x.length) :
    (sequenceGrowthFactor x window).getD i none =
      amendedGrowthEstimate x window i := by
  rw [sequenceGrowthFactor_getD x window i hi]
  unfold amendedGrowthEstimate
  by_cases h1 : ∀ v ∈ windowSlice x window i, v < 0.5
  · rw [if_pos h1, if_pos h1]
  rw [if_neg h1, if_neg h1]
  by_cases h2 : ∀ v ∈ windowSlice x window i, v < 0
  · rw [if_pos h2, if_pos h2]
  rw [if_neg h2, if_neg h2]
  by_cases h3 : (((windowSlice x window i).zip
      (windowTimes x.length window i)).filter
        fun p => decide (¬ p.1 < 0)).length < 3
  · rw [if_pos h3, if_pos h3]
  rw [if_neg h3, if_neg h3]
  have hslen : (windowSlice x window i).length =
      (windowTimes x.length window i).length := by
    rw [windowSlice_length x window i hi, windowTimes_length]
  have hsub : List.Sublist ((((windowSlice x window i).zip
      (windowTimes x.length window i)).filter
        fun p => decide (¬ p.1 < 0)).map (fun p => p.2))
      (windowTimes x.length window i) := by
    have h4 : List.Sublist (((windowSlice x window i).zip
        (windowTimes x.length window i)).filter
          (fun p => decide (¬ p.1 < 0)))
        ((windowSlice x window i).zip (windowTimes x.length window i)) :=
      List.filter_sublist _
    have h5 := h4.map (fun p : ℝ × ℝ => p.2)
    have h6 : ((windowSlice x window i).zip
        (windowTimes x.length window i)).map (fun p : ℝ × ℝ => p.2) =
        windowTimes x.length window i :=
      List.map_snd_zip _ _ (le_of_eq hslen.symm)
    rwa [h6] at h5
  have hpw := (windowTimes_pairwise x.length window i).sublist hsub
  have hok := leastSquares_ok_of_inj
    ((((windowSlice x window i).zip
      (windowTimes x.length window i)).filter
        fun p => decide (¬ p.1 < 0)).map fun p => p.2)
    ((((windowSlice x window i).zip
      (windowTimes x.length window i)).filter
        fun p => decide (¬ p.1 < 0)).map fun p => Real.log (p.1 + 1e-10))
    1 (by simp) (by simp only [List.length_map]; omega)
    (get_inj_of_pairwise_ne _ hpw)
  rw [hok]
  show some (Real.exp ((olsFitOf _ _ 1).weights.getD 1 0)) = _
  rw [olsFitOf_weights_getD_one, olsWeights_one_eq_linFitSlope]
  congr 1
  congr 1
  rw [← linFitSlope_shift
    ((((windowSlice x window i).zip
      (windowTimes x.length window i)).filter
        fun p => decide (¬ p.1 < 0)).map fun p => p.2)
    ((((windowSlice x window i).zip
      (windowTimes x.length window i)).filter
        fun p => decide (¬ p.1 < 0)).map fun p => Real.log (p.1 + 1e-10))
    (i : ℝ), List.map_map]
  rfl

/-- Success of `local_regression`: every clipped window keeps enough
points, so `mapM` returns the per-index fits. -/
lemma localRegression_ok (samples : List ℝ) (logD : Bool) (order window : ℕ)
    (hw : 3 ≤ window)
    (hcount : order + 1 < min samples.length (window / 2 + 1)) :
    localRegression samples window logD order = .ok
      ((List.range samples.length).map fun i =>
        olsFitOf (windowTimes samples.length window i)
          (windowSlice (if logD then samples.map Real.log else samples)
            window i) order) := by
  unfold localRegression
  rw [if_neg (by omega)]
  have hxlen : (if logD then samples.map Real.log else samples).length =
      samples.length := by
    cases logD <;> simp
  refine mapM_ok _ _ _ ?_
  intro i hi
  have hiN : i < samples.length := List.mem_range.mp hi
  have hslen : (windowSlice
      (if logD then samples.map Real.log else samples) window i).length =
      winHi samples.length window i - winLo window i := by
    have := windowSlice_length
      (if logD then samples.map Real.log else samples) window i
      (by rw [hxlen]; exact hiN)
    rwa [hxlen] at this
  refine leastSquares_ok_of_inj _ _ _ ?_ ?_ (windowTimes_inj _ _ _)
  · rw [windowTimes_length, hslen]
  · rw [hslen]
    have := window_count_lower samples.length window i hiN
    omega

/-- A successful `mapM` preserves the length. -/
lemma mapM_ok_length {α β : Type} (l : List α)
    (g : α → Except AnalysisError β) (out : List β)
    (h : l.mapM g = .ok out) : out.length = l.length := by
  induction l generalizing out with
  | nil =>
    injection h with h2
    rw [← h2]
    simp
  | cons a l ih =>
    rw [List.mapM_cons] at h
    cases hga : g a with
    | error e => rw [hga] at h; exact Except.noConfusion h
    | ok b =>
      rw [hga] at h
      cases hgl : l.mapM g with
      | error e =>
        rw [hgl] at h
        exact Except.noConfusion h
      | ok bs =>
        rw [hgl] at h
        injection h with h2
        rw [← h2, List.length_cons, ih bs hgl]
        rfl

/-- A successful `estimate_slope` presupposes a valid window and
returns one row per series index. -/
lemma estimateSlope_ok_parts (tppf : ℝ → ℕ → ℝ) (samples : List ℝ)
    (window order : ℕ) (alpha : ℝ) (slopes : List (ℝ × ℝ × ℝ))
    (h : estimateSlope tppf samples window order alpha = .ok slopes) :
    ¬ window < 3 ∧ slopes.length = samples.length := by
  unfold estimateSlope localRegression at h
  by_cases hw : window < 3
  · rw [if_pos hw] at h
    exact Except.noConfusion h
  refine ⟨hw, ?_⟩
  rw [if_neg hw] at h
  cases hmm : (List.range samples.length).mapM (fun i =>
      leastSquares (windowTimes samples.length window i)
        (windowSlice (if false then samples.map Real.log else samples)
          window i) order) with
  | error e => rw [hmm] at h; exact Except.noConfusion h
  | ok regs =>
    rw [hmm] at h
    have hlen : regs.length = samples.length := by
      have := mapM_ok_length _ _ _ hmm
      simpa using this
    injection h with h2
    rw [← h2]
    simp [hlen]

/-- With a successful `estimate_slope`, `growth_factor` returns the
post-processed columns. -/
lemma growthFactor_eq_of_estimateSlope (tppf : ℝ → ℕ → ℝ)
    (samples : List ℝ) (window order : ℕ) (alpha : ℝ)
    (slopes : List (ℝ × ℝ × ℝ))
    (h : estimateSlope tppf samples window order alpha = .ok slopes) :
    growthFactor tppf samples window order alpha =
      .ok (growthFactorFromSlopes slopes window) := by
  have hw := (estimateSlope_ok_parts tppf samples window order alpha slopes h).1
  unfold growthFactor
  rw [if_neg hw, h]
  rfl

lemma ofFn_pair (f : Fin 2 → ℝ) : List.ofFn f = [f 0, f 1] := by
  simp [List.ofFn_succ]

/-- Evaluating the derivative of a two-coefficient fit combined with a
vanishing confidence column gives the linear coefficient. -/
lemma zip_deriv_eval (op : ℝ → ℝ → ℝ) (hop : ∀ x : ℝ, op x 0 = x)
    (w0 w1 a b t : ℝ) :
    evalpoly (derivative (List.zipWith op [w0, w1] [0 * a, 0 * b])) t = w1 := by
  have h : List.zipWith op [w0, w1] [0 * a, 0 * b] =
      [op w0 (0 * a), op w1 (0 * b)] := rfl
  rw [h, derivative_pair, evalpoly_single, zero_mul, hop]

lemma weights_of_olsFitOf_one (tv ys : List ℝ) :
    (olsFitOf tv ys 1).weights =
      [olsWeights tv ys 1 0, olsWeights tv ys 1 1] := by
  have h : (olsFitOf tv ys 1).weights = List.ofFn (olsWeights tv ys 1) := rfl
  rw [h, olsWeights_linear_list]

/-- With the zero `t.ppf` stub, the slope of an order-1 fit plus or
minus its confidence column is just the slope weight. -/
lemma row_comp_generic (tv ys : List ℝ) (alpha t : ℝ)
    (op : ℝ → ℝ → ℝ) (hop : ∀ x : ℝ, op x 0 = x) :
    evalpoly (derivative (List.zipWith op (olsFitOf tv ys 1).weights
      ((olsFitOf tv ys 1).confidence (fun _ _ => 0) alpha))) t =
      olsWeights tv ys 1 1 := by
  have hvar : (olsFitOf tv ys 1).variances =
      List.ofFn (fun j : Fin 2 =>
        (normalMatrix tv 2)⁻¹ j j *
          (olsSSR tv ys 1 / ((tv.length - 2 : ℕ) : ℝ))) := rfl
  have hcv : (olsFitOf tv ys 1).confidence (fun _ _ => 0) alpha =
      [0 * Real.sqrt ((normalMatrix tv 2)⁻¹ 0 0 *
          (olsSSR tv ys 1 / ((tv.length - 2 : ℕ) : ℝ))),
       0 * Real.sqrt ((normalMatrix tv 2)⁻¹ 1 1 *
          (olsSSR tv ys 1 / ((tv.length - 2 : ℕ) : ℝ)))] := by
    unfold OLSFit.confidence
    rw [hvar, ofFn_pair]
    rfl
  rw [weights_of_olsFitOf_one, hcv]
  exact zip_deriv_eval op hop _ _ _ _ t

lemma row_comp_plain (tv ys : List ℝ) (t : ℝ) :
    evalpoly (derivative (olsFitOf tv ys 1).weights) t =
      olsWeights tv ys 1 1 := by
  rw [weights_of_olsFitOf_one, derivative_pair, evalpoly_single]

lemma enum_map_range {β : Type} (N : ℕ) (g : ℕ → β) :
    ((List.range N).map g).enum = (List.range N).map (fun i => (i, g i)) := by
  rw [List.enum_eq_zip_range, List.length_map, List.length_range]
  calc (List.range N).zip ((List.range N).map g)
      = ((List.range N).map id).zip ((List.range N).map g) := by
        rw [List.map_id]
    _ = (List.range N).map (fun a => (id a, g a)) := List.zip_map' id g _
    _ = (List.range N).map (fun i => (i, g i)) := rfl

/-- `estimate_slope` with the zero `t.ppf` stub: all three columns of
every row equal the slope weight of the window's order-1 fit. -/
lemma estimateSlope_eval_tppf0 (samples : List ℝ) (window : ℕ) (alpha : ℝ)
    (hw : 3 ≤ window)
    (hcount : 1 + 1 < min samples.length (window / 2 + 1)) :
    estimateSlope (fun _ _ => 0) samples window 1 alpha = .ok
      ((List.range samples.length).map fun i =>
        (olsWeights (windowTimes samples.length window i)
            (windowSlice samples window i) 1 1,
         olsWeights (windowTimes samples.length window i)
            (windowSlice samples window i) 1 1,
         olsWeights (windowTimes samples.length window i)
            (windowSlice samples window i) 1 1)) := by
  unfold estimateSlope
  rw [localRegression_ok samples false 1 window hw hcount]
  have hb : ∀ (X : List OLSFit)
      (f : List OLSFit → Except AnalysisError (List (ℝ × ℝ × ℝ))),
      (Except.ok X >>= f) = f X := fun X f => rfl
  rw [hb]
  have hiff : (if false then samples.map Real.log else samples) = samples := rfl
  rw [hiff]
  have hmap : (((List.range samples.length).map fun i =>
      olsFitOf (windowTimes samples.length window i)
        (windowSlice samples window i) 1).enum) =
      (List.range samples.length).map (fun i =>
        (i, olsFitOf (windowTimes samples.length window i)
          (windowSlice samples window i) 1)) := enum_map_range _ _
  show Except.ok _ = Except.ok _
  rw [hmap, List.map_map]
  refine congrArg Except.ok (List.map_congr_left fun i _ => ?_)
  show (evalpoly (derivative (olsFitOf _ _ 1).weights) _,
    evalpoly (derivative (List.zipWith (· + ·) (olsFitOf _ _ 1).weights
      ((olsFitOf _ _ 1).confidence (fun _ _ => 0) alpha))) _,
    evalpoly (derivative (List.zipWith (· - ·) (olsFitOf _ _ 1).weights
      ((olsFitOf _ _ 1).confidence (fun _ _ => 0) alpha))) _) = _
  rw [row_comp_plain, row_comp_generic _ _ alpha _ _ add_zero,
    row_comp_generic _ _ alpha _ _ sub_zero]

/-- Middle index of a three-sample sequence with window 3 and
non-negative values (not all below 0.5): the growth factor is the
exponential of the closed-form log-domain slope. -/
lemma sgf_three_mid (a b c : ℝ) (ha : ¬ a < 0) (hb : ¬ b < 0) (hc : ¬ c < 0)
    (h05 : ¬ b < 0.5) :
    (sequenceGrowthFactor [a, b, c] 3).getD 1 none =
      some (Real.exp (linFitSlope [(0 : ℝ) - 1, 1 - 1, 2 - 1]
        [Real.log (a + 1e-10), Real.log (b + 1e-10),
         Real.log (c + 1e-10)])) := by
  have hi : (1 : ℕ) < ([a, b, c] : List ℝ).length := by norm_num
  rw [sequenceGrowthFactor_eq_amended [a, b, c] 3 1 hi]
  unfold amendedGrowthEstimate
  have hslice : windowSlice [a, b, c] 3 1 = [a, b, c] := by
    norm_num [windowSlice, winLo, winHi]
  have h3 : ([a, b, c] : List ℝ).length = 3 := rfl
  have htimes : windowTimes ([a, b, c] : List ℝ).length 3 1 = [0, 1, 2] := by
    rw [h3]
    norm_num [windowTimes, winLo, winHi, List.range_succ]
  rw [hslice, htimes]
  have h1 : ¬ ∀ v ∈ ([a, b, c] : List ℝ), v < 0.5 := fun hall =>
    h05 (hall b (by simp))
  rw [if_neg h1]
  have h2 : ¬ ∀ v ∈ ([a, b, c] : List ℝ), v < 0 := fun hall =>
    ha (hall a (by simp))
  rw [if_neg h2]
  have hzip : ([a, b, c] : List ℝ).zip ([0, 1, 2] : List ℝ) =
      [(a, 0), (b, 1), (c, 2)] := rfl
  rw [hzip]
  have hfil : ([(a, (0 : ℝ)), (b, 1), (c, 2)]).filter
      (fun p => decide (¬ p.1 < 0)) = [(a, 0), (b, 1), (c, 2)] := by
    rw [List.filter_eq_self]
    intro p hp
    fin_cases hp
    · simpa using ha
    · simpa using hb
    · simpa using hc
  rw [hfil]
  rw [if_neg (by norm_num)]
  have hm1 : ([(a, (0 : ℝ)), (b, 1), (c, 2)]).map
      (fun p => p.2 - ((1 : ℕ) : ℝ)) =
      [0 - ((1 : ℕ) : ℝ), 1 - ((1 : ℕ) : ℝ), 2 - ((1 : ℕ) : ℝ)] := rfl
  have hm2 : ([(a, (0 : ℝ)), (b, 1), (c, 2)]).map
      (fun p => Real.log (p.1 + 1e-10)) =
      [Real.log (a + 1e-10), Real.log (b + 1e-10),
       Real.log (c + 1e-10)] := rfl
  rw [hm1, hm2]
  norm_num

lemma linFit_three (x0 x1 x2 y0 y1 y2 : ℝ) :
    linFitSlope [x0, x1, x2] [y0, y1, y2] =
      (3 * (x0 * y0 + x1 * y1 + x2 * y2) -
          (x0 + x1 + x2) * (y0 + y1 + y2)) /
        (3 * (x0 ^ 2 + x1 ^ 2 + x2 ^ 2) - (x0 + x1 + x2) ^ 2) := by
  unfold linFitSlope
  norm_num [Finset.sum_range_succ]

lemma c2_col_same :
    (sequenceGrowthFactor [1 - 1e-10, 1 - 1e-10, 1 - 1e-10] 3).getD 1 none =
      some 1 := by
  rw [sgf_three_mid (1 - 1e-10) (1 - 1e-10) (1 - 1e-10)
    (by norm_num) (by norm_num) (by norm_num) (by norm_num)]
  have hlog : Real.log ((1 - 1e-10 : ℝ) + 1e-10) = 0 := by
    rw [show ((1 - 1e-10 : ℝ) + 1e-10) = 1 by norm_num, Real.log_one]
  rw [hlog, linFit_three]
  norm_num [Real.exp_zero]

lemma c2_col_diff :
    (sequenceGrowthFactor [1 - 1e-10, 1 - 1e-10, 4 - 1e-10] 3).getD 1 none =
      some 2 := by
  rw [sgf_three_mid (1 - 1e-10) (1 - 1e-10) (4 - 1e-10)
    (by norm_num) (by norm_num) (by norm_num) (by norm_num)]
  have hlog1 : Real.log ((1 - 1e-10 : ℝ) + 1e-10) = 0 := by
    rw [show ((1 - 1e-10 : ℝ) + 1e-10) = 1 by norm_num, Real.log_one]
  have hlog4 : Real.log ((4 - 1e-10 : ℝ) + 1e-10) = 2 * Real.log 2 := by
    rw [show ((4 - 1e-10 : ℝ) + 1e-10) = 4 by norm_num,
      show (4 : ℝ) = 2 ^ 2 by norm_num, Real.log_pow]
    norm_num
  rw [hlog1, hlog4, linFit_three]
  have hslope : (3 * (((0 : ℝ) - 1) * 0 + (1 - 1) * 0 +
        (2 - 1) * (2 * Real.log 2)) -
      (((0 : ℝ) - 1) + (1 - 1) + (2 - 1)) * (0 + 0 + 2 * Real.log 2)) /
        (3 * (((0 : ℝ) - 1) ^ 2 + (1 - 1) ^ 2 + (2 - 1) ^ 2) -
          (((0 : ℝ) - 1) + (1 - 1) + (2 - 1)) ^ 2) = Real.log 2 := by
    rw [div_eq_iff (by norm_num)]
    ring
  rw [hslope, Real.exp_log (by norm_num : (0 : ℝ) < 2)]

/-- C2: refuted — a code bug.  After `growth_factor`'s row-wise
re-sort, the "upper" column (column 1) does not hold the maximum of
the two bound values.  On the slope matrix with rows
`(1-1e-10, 1-1e-10, 1-1e-10)` (twice) and `(1-1e-10, 1-1e-10, 4-1e-10)`
with window 3, row 1 of the output has all three entries defined and
equals `(1, 1, 2)`: the "upper" column holds `1`, the "lower" column
holds `2`, and `1 < 2`.  The mask `np.argmin(ci, 1) != 0` selects
exactly the rows already in (max, min) order and swaps those, leaving
the wrongly-ordered rows alone, so the invariant is inverted. -/
theorem c2_resort_inverts_bound_columns :
    (((growthFactorFromSlopes
        [(1 - 1e-10, 1 - 1e-10, 1 - 1e-10), (1 - 1e-10, 1 - 1e-10, 1 - 1e-10),
         (1 - 1e-10, 1 - 1e-10, 4 - 1e-10)] 3).getD 1
        (none, none, none)).2.1 = some 1) ∧
    (((growthFactorFromSlopes
        [(1 - 1e-10, 1 - 1e-10, 1 - 1e-10), (1 - 1e-10, 1 - 1e-10, 1 - 1e-10),
         (1 - 1e-10, 1 - 1e-10, 4 - 1e-10)] 3).getD 1
        (none, none, none)).2.2 = some 2) ∧
    (1 : ℝ) < 2 := by
  have hmap0 : ([((1 - 1e-10 : ℝ), (1 - 1e-10 : ℝ), (1 - 1e-10 : ℝ)),
      (1 - 1e-10, 1 - 1e-10, 1 - 1e-10),
      (1 - 1e-10, 1 - 1e-10, 4 - 1e-10)].map fun r => r.1) =
      [1 - 1e-10, 1 - 1e-10, 1 - 1e-10] := rfl
  have hmap1 : ([((1 - 1e-10 : ℝ), (1 - 1e-10 : ℝ), (1 - 1e-10 : ℝ)),
      (1 - 1e-10, 1 - 1e-10, 1 - 1e-10),
      (1 - 1e-10, 1 - 1e-10, 4 - 1e-10)].map fun r => r.2.1) =
      [1 - 1e-10, 1 - 1e-10, 1 - 1e-10] := rfl
  have hmap2 : ([((1 - 1e-10 : ℝ), (1 - 1e-10 : ℝ), (1 - 1e-10 : ℝ)),
      (1 - 1e-10, 1 - 1e-10, 1 - 1e-10),
      (1 - 1e-10, 1 - 1e-10, 4 - 1e-10)].map fun r => r.2.2) =
      [1 - 1e-10, 1 - 1e-10, 4 - 1e-10] := rfl
  rw [growthFactorFromSlopes_getD _ 3 1 (by norm_num),
    hmap0, hmap1, hmap2, c2_col_same, c2_col_diff]
  norm_num [argminIdx]

/-- Modelled from the spec (claim C3): the growth-factor estimate at
index `i` is computed from the windowed slice of the series'
`daily_change` centered at `i` — negative entries dropped, the
surviving values transformed to `log(x + 1e-10)`, regressed against
the re-centered day offsets, and the estimate is `exp` of the slope
weight — together with the spec's guard branches (all below 0.5 gives
0, all negative or fewer than three surviving points gives the
undefined sentinel). -/
noncomputable def specDailyChangeGrowth (samples : List ℝ) (window i : ℕ) :
    Option ℝ :=
  amendedGrowthEstimate (dailyChange samples) window i

/-- The five order-1 window fits of `estimate_slope` on the series
`[0, 2, 0, 2, 0]` with window 4 and the zero `t.ppf` stub. -/
lemma c3_slopes_eval :
    estimateSlope (fun _ _ => 0) [0, 2, 0, 2, 0] 4 1 (95 / 100) = .ok
      [((0 : ℝ), (0 : ℝ), (0 : ℝ)), (2 / 5, 2 / 5, 2 / 5), (0, 0, 0),
       (-(2 / 5), -(2 / 5), -(2 / 5)), (0, 0, 0)] := by
  have hW0 : olsWeights (windowTimes 5 4 0)
      (windowSlice ([0, 2, 0, 2, 0] : List ℝ) 4 0) 1 1 = 0 := by
    have ht : windowTimes 5 4 0 = [0, 1, 2] := by
      norm_num [windowTimes, winLo, winHi, List.range_succ]
    have hs : windowSlice ([0, 2, 0, 2, 0] : List ℝ) 4 0 = [0, 2, 0] := by
      norm_num [windowSlice, winLo, winHi]
    rw [ht, hs, olsWeights_one_eq_linFitSlope]
    norm_num [linFitSlope, Finset.sum_range_succ]
  have hW1 : olsWeights (windowTimes 5 4 1)
      (windowSlice ([0, 2, 0, 2, 0] : List ℝ) 4 1) 1 1 = 2 / 5 := by
    have ht : windowTimes 5 4 1 = [0, 1, 2, 3] := by
      norm_num [windowTimes, winLo, winHi, List.range_succ]
    have hs : windowSlice ([0, 2, 0, 2, 0] : List ℝ) 4 1 = [0, 2, 0, 2] := by
      norm_num [windowSlice, winLo, winHi]
    rw [ht, hs, olsWeights_one_eq_linFitSlope]
    norm_num [linFitSlope, Finset.sum_range_succ]
  have hW2 : olsWeights (windowTimes 5 4 2)
      (windowSlice ([0, 2, 0, 2, 0] : List ℝ) 4 2) 1 1 = 0 := by
    have ht : windowTimes 5 4 2 = [0, 1, 2, 3, 4] := by
      norm_num [windowTimes, winLo, winHi, List.range_succ]
    have hs : windowSlice ([0, 2, 0, 2, 0] : List ℝ) 4 2 =
        [0, 2, 0, 2, 0] := by
      norm_num [windowSlice, winLo, winHi]
    rw [ht, hs, olsWeights_one_eq_linFitSlope]
    norm_num [linFitSlope, Finset.sum_range_succ]
  have hW3 : olsWeights (windowTimes 5 4 3)
      (windowSlice ([0, 2, 0, 2, 0] : List ℝ) 4 3) 1 1 = -(2 / 5) := by
    have ht : windowTimes 5 4 3 = [1, 2, 3, 4] := by
      norm_num [windowTimes, winLo, winHi, List.range_succ]
    have hs : windowSlice ([0, 2, 0, 2, 0] : List ℝ) 4 3 = [2, 0, 2, 0] := by
      norm_num [windowSlice, winLo, winHi]
    rw [ht, hs, olsWeights_one_eq_linFitSlope]
    norm_num [linFitSlope, Finset.sum_range_succ]
  have hW4 : olsWeights (windowTimes 5 4 4)
      (windowSlice ([0, 2, 0, 2, 0] : List ℝ) 4 4) 1 1 = 0 := by
    have ht : windowTimes 5 4 4 = [2, 3, 4] := by
      norm_num [windowTimes, winLo, winHi, List.range_succ]
    have hs : windowSlice ([0, 2, 0, 2, 0] : List ℝ) 4 4 = [0, 2, 0] := by
      norm_num [windowSlice, winLo, winHi]
    rw [ht, hs, olsWeights_one_eq_linFitSlope]
    norm_num [linFitSlope, Finset.sum_range_succ]
  rw [estimateSlope_eval_tppf0 [0, 2, 0, 2, 0] 4 (95 / 100)
    (by norm_num) (by norm_num)]
  simp only [show ([0, 2, 0, 2, 0] : List ℝ).length = 5 from rfl,
    List.range_succ, List.range_zero, List.map_append, List.map_cons,
    List.map_nil, List.nil_append, List.cons_append]
  rw [hW0, hW1, hW2, hW3, hW4]

/-- C3 counterexample: on the series `[0, 2, 0, 2, 0]` with window 4,
order 1 and the zero `t.ppf` stub, the pipeline's best-fit growth
factor at index 2 is the defined value 0 (the `estimate_slope` column
fed to `_sequence_growth_factor` is `[0, 2/5, 0, -2/5, 0]`, all below
0.5), while the spec's algorithm on the windowed `daily_change` slice
`[0, 2, -2, 2, -2]` keeps three non-negative points and returns the
exponential of a regression slope, which is never 0. -/
theorem c3_counterexample :
    (∃ out, growthFactor (fun _ _ => 0) [0, 2, 0, 2, 0] 4 1 (95 / 100) =
        .ok out ∧ (out.getD 2 (none, none, none)).1 = some 0) ∧
    specDailyChangeGrowth [0, 2, 0, 2, 0] 4 2 ≠ some 0 := by
  constructor
  · refine ⟨growthFactorFromSlopes
      [((0 : ℝ), (0 : ℝ), (0 : ℝ)), (2 / 5, 2 / 5, 2 / 5), (0, 0, 0),
       (-(2 / 5), -(2 / 5), -(2 / 5)), (0, 0, 0)] 4,
      growthFactor_eq_of_estimateSlope _ _ _ _ _ _ c3_slopes_eval, ?_⟩
    rw [growthFactorFromSlopes_getD _ 4 2 (by norm_num), fst_of_sortRow]
    have hm : ([((0 : ℝ), (0 : ℝ), (0 : ℝ)), (2 / 5, 2 / 5, 2 / 5), (0, 0, 0),
        (-(2 / 5), -(2 / 5), -(2 / 5)), (0, 0, 0)].map fun r => r.1) =
        [0, 2 / 5, 0, -(2 / 5), 0] := rfl
    rw [hm]
    refine sequenceGrowthFactor_small _ 4 2 (by norm_num) ?_
    have hsl : windowSlice ([0, 2 / 5, 0, -(2 / 5), 0] : List ℝ) 4 2 =
        [0, 2 / 5, 0, -(2 / 5), 0] := by
      norm_num [windowSlice, winLo, winHi]
    rw [hsl]
    intro v hv
    fin_cases hv <;> norm_num
  · unfold specDailyChangeGrowth
    have hdc : dailyChange [0, 2, 0, 2, 0] = [0, 2, -2, 2, -2] := by
      norm_num [dailyChange, List.range_succ]
    rw [hdc]
    unfold amendedGrowthEstimate
    have hsl : windowSlice ([0, 2, -2, 2, -2] : List ℝ) 4 2 =
        [0, 2, -2, 2, -2] := by
      norm_num [windowSlice, winLo, winHi]
    have ht : windowTimes ([0, 2, -2, 2, -2] : List ℝ).length 4 2 =
        [0, 1, 2, 3, 4] := by
      rw [show ([0, 2, -2, 2, -2] : List ℝ).length = 5 from rfl]
      norm_num [windowTimes, winLo, winHi, List.range_succ]
    rw [hsl, ht]
    rw [if_neg fun hall => absurd (hall 2 (by norm_num)) (by norm_num)]
    rw [if_neg fun hall => absurd (hall 2 (by norm_num)) (by norm_num)]
    have hzip : ([0, 2, -2, 2, -2] : List ℝ).zip ([0, 1, 2, 3, 4] : List ℝ) =
        [(0, 0), (2, 1), (-2, 2), (2, 3), (-2, 4)] := rfl
    rw [hzip]
    have hfil : ([((0 : ℝ), (0 : ℝ)), (2, 1), (-2, 2), (2, 3),
        (-2, 4)]).filter (fun p => decide (¬ p.1 < 0)) =
        [(0, 0), (2, 1), (2, 3)] := by
      norm_num [List.filter_cons]
    rw [hfil]
    rw [if_neg (by norm_num)]
    intro hcon
    rw [Option.some.injEq] at hcon
    exact Real.exp_ne_zero _ hcon

/-- C3 (amended): on a successful run, `growth_factor` applies the
per-index growth computation to the columns of `estimate_slope` — the
slope of the windowed order-1 fit of the SAMPLES — not to the series'
`daily_change`.  Per index the computation does match the claimed
inner algorithm: the windowed slice (here of the slope column) has
its negative entries dropped, the survivors are transformed to
`log(x + 1e-10)` and regressed against the re-centered day offsets,
and the estimate is `exp` of the slope weight, subject to the guard
branches. -/
theorem c3_growth_is_slope_column_estimate (tppf : ℝ → ℕ → ℝ)
    (samples : List ℝ) (window order : ℕ) (alpha : ℝ)
    (slopes : List (ℝ × ℝ × ℝ)) (i : ℕ)
    (hs : estimateSlope tppf samples window order alpha = .ok slopes)
    (hi : i < samples.length) :
    growthFactor tppf samples window order alpha =
      .ok (growthFactorFromSlopes slopes window) ∧
    ((growthFactorFromSlopes slopes window).getD i (none, none, none)).1 =
      amendedGrowthEstimate (slopes.map fun r => r.1) window i := by
  obtain ⟨hw, hlen⟩ :=
    estimateSlope_ok_parts tppf samples window order alpha slopes hs
  refine ⟨growthFactor_eq_of_estimateSlope tppf samples window order alpha
    slopes hs, ?_⟩
  have hi' : i < slopes.length := by rw [hlen]; exact hi
  rw [growthFactorFromSlopes_getD slopes window i hi', fst_of_sortRow]
  exact sequenceGrowthFactor_eq_amended _ window i
    (by rw [List.length_map]; exact hi')

/-- Witness for C3 at the concrete run of the counterexample input. -/
theorem c3_growth_is_slope_column_estimate_witness :
    growthFactor (fun _ _ => (0 : ℝ)) [0, 2, 0, 2, 0] 4 1 (95 / 100) =
      .ok (growthFactorFromSlopes
        [((0 : ℝ), (0 : ℝ), (0 : ℝ)), (2 / 5, 2 / 5, 2 / 5), (0, 0, 0),
         (-(2 / 5), -(2 / 5), -(2 / 5)), (0, 0, 0)] 4) ∧
    ((growthFactorFromSlopes
        [((0 : ℝ), (0 : ℝ), (0 : ℝ)), (2 / 5, 2 / 5, 2 / 5), (0, 0, 0),
         (-(2 / 5), -(2 / 5), -(2 / 5)), (0, 0, 0)] 4).getD 2
        (none, none, none)).1 =
      amendedGrowthEstimate
        ([((0 : ℝ), (0 : ℝ), (0 : ℝ)), (2 / 5, 2 / 5, 2 / 5), (0, 0, 0),
          (-(2 / 5), -(2 / 5), -(2 / 5)), (0, 0, 0)].map fun r => r.1) 4 2 :=
  c3_growth_is_slope_column_estimate (fun _ _ => 0) [0, 2, 0, 2, 0] 4 1
    (95 / 100) _ 2 c3_slopes_eval (by norm_num)

end CaseRate
